import Mathlib

/-!
VectorMap: a shallow embedding of `01-basics/my_excercises/VectorMap/VectorMap.hpp`:
the primary template `VectorMap<KeyType, ValueType>`, a key/value container
kept in two parallel vectors `keys_` and `values_` and searched linearly
with `std::find`, and its partial specialization `VectorMap<bool, ValueType>`
(`VectorMapBool`), which keeps one value for each of the two keys.

Conventions of the embedding
* `std::vector<T>` is `List T`; `emplace_back` appends at the end.
* `KeyType`'s `operator==` is decidable equality on `K`; `ValueType {}` is
  `default` of `Inhabited V`.
* An iterator into `keys_` is its distance from `begin()`; `end()` is
  `keys_.length`.
* A member function that changes the object returns the new object next to
  its result. A `ValueType&` result is the position of the slot in
  `values_`; reading and writing through it are `deref` and `assign`.
* `throw std::out_of_range` is `Error.out_of_range`. The unchecked
  `values_[position]` with `position` outside `values_` has no defined
  behaviour in C++ and is `Error.undefined_behaviour`.
-/

namespace VectorMap

/-- The two ways a call can fail to produce a result. -/
inductive Error where
  | out_of_range
  | undefined_behaviour
  deriving DecidableEq

end VectorMap

/-- The data members of `VectorMap<KeyType, ValueType>`. -/
structure VectorMap (K V : Type) where
  keys_ : List K
  values_ : List V
  deriving DecidableEq

namespace VectorMap

variable {K V : Type}

/-- The value-initialised object: both vectors empty. -/
def empty : VectorMap K V := ⟨[], []⟩

/-- The iterator `std::find(keys_.begin(), keys_.end(), key)` as a distance from
`begin()`: the first position holding `key`, or the length when there is none. -/
def std_find [DecidableEq K] : List K → K → Nat
  | [], _ => 0
  | x :: xs, key => if x = key then 0 else std_find xs key + 1

/-- The member `insert(const KeyType& key, const ValueType& val)`. -/
def insert [DecidableEq K] (m : VectorMap K V) (key : K) (val : V) :
    (K × Bool) × VectorMap K V :=
  let keyIt := std_find m.keys_ key
  if keyIt ≠ m.keys_.length then
    ((key, false), m)
  else
    ((key, true), ⟨m.keys_ ++ [key], m.values_ ++ [val]⟩)

/-- The member `insert(KeyType&& key, ValueType&& val)`. `movedFrom key` is the
state `std::move` leaves `key` in once `emplace_back` has taken it (the
identity for scalar key types); the final `make_pair(key, true)` reads `key`
after that move. -/
def insert_rval [DecidableEq K] (movedFrom : K → K) (m : VectorMap K V) (key : K) (val : V) :
    (K × Bool) × VectorMap K V :=
  let keyIt := std_find m.keys_ key
  if keyIt ≠ m.keys_.length then
    ((key, false), m)
  else
    ((movedFrom key, true), ⟨m.keys_ ++ [key], m.values_ ++ [val]⟩)

/-- The unchecked `values_[position]` taken as a reference: the position
itself when it is inside `values_`. -/
def slot (m : VectorMap K V) (position : Nat) : Except Error Nat :=
  if position < m.values_.length then .ok position else .error .undefined_behaviour

/-- The member `operator[](const KeyType& key)`: the referenced slot and the
object after the call. `values_.back()` is the last slot of the grown vector. -/
def op_subscript [DecidableEq K] [Inhabited V] (m : VectorMap K V) (key : K) :
    Except Error (Nat × VectorMap K V) :=
  let keyIt := std_find m.keys_ key
  if keyIt ≠ m.keys_.length then
    (slot m keyIt).map fun position => (position, m)
  else
    let m1 : VectorMap K V := ⟨m.keys_ ++ [key], m.values_ ++ [default]⟩
    .ok (m1.values_.length - 1, m1)

/-- The member `operator[](KeyType&& key)`: as the overload above, the key
being moved into `keys_` in place of copied. -/
def op_subscript_rval [DecidableEq K] [Inhabited V] (m : VectorMap K V) (key : K) :
    Except Error (Nat × VectorMap K V) :=
  let keyIt := std_find m.keys_ key
  if keyIt ≠ m.keys_.length then
    (slot m keyIt).map fun position => (position, m)
  else
    let m1 : VectorMap K V := ⟨m.keys_ ++ [key], m.values_ ++ [default]⟩
    .ok (m1.values_.length - 1, m1)

/-- The member `at(const KeyType& key) const`: the value read through the
returned `const ValueType&`. -/
def at_const [DecidableEq K] (m : VectorMap K V) (key : K) : Except Error V :=
  let keyIt := std_find m.keys_ key
  if keyIt = m.keys_.length then
    .error .out_of_range
  else
    match m.values_[keyIt]? with
    | some v => .ok v
    | none => .error .undefined_behaviour

/-- The member `at(const KeyType& key)` of a non-const object: the referenced
slot, and the object after the call. -/
def at_mut [DecidableEq K] (m : VectorMap K V) (key : K) :
    Except Error Nat × VectorMap K V :=
  let keyIt := std_find m.keys_ key
  if keyIt = m.keys_.length then
    (.error .out_of_range, m)
  else
    (slot m keyIt, m)

/-- Reading through a `ValueType&` that denotes slot `position`. -/
def deref (m : VectorMap K V) (position : Nat) : Option V :=
  m.values_[position]?

/-- The assignment `ref = w` through a `ValueType&` that denotes slot `position`. -/
def assign (m : VectorMap K V) (position : Nat) (w : V) : VectorMap K V :=
  ⟨m.keys_, m.values_.set position w⟩

/-- The accessor `keys() const`. -/
def keys (m : VectorMap K V) : List K := m.keys_

/-- The accessor `values()`: a copy of `values_`. -/
def values (m : VectorMap K V) : List V := m.values_

/-- The data-model invariant of the container: the two vectors have the same
length and no key is stored twice. -/
def Invariant (m : VectorMap K V) : Prop :=
  m.keys_.length = m.values_.length ∧ m.keys_.Nodup

/-- One statement a client can execute on a `VectorMap` object: a call of one
of the member functions, for the reference-returning ones optionally followed by
an assignment through the returned reference (`map[key] = w`, `map.at(key) = w`). -/
inductive Op (K V : Type) where
  | insert (key : K) (val : V)
  | insert_rval (key : K) (val : V)
  | subscript (key : K)
  | subscript_assign (key : K) (w : V)
  | subscript_rval (key : K)
  | subscript_rval_assign (key : K) (w : V)
  | at_const (key : K)
  | at_mut (key : K)
  | at_assign (key : K) (w : V)

/-- The object after one statement. A thrown `std::out_of_range` is caught by
the caller and leaves the object as the call left it (the pending assignment is
not executed); a statement with undefined behaviour has no next state. -/
def step [DecidableEq K] [Inhabited V] (movedFrom : K → K) (m : VectorMap K V) :
    Op K V → Option (VectorMap K V)
  | .insert key val => some (m.insert key val).2
  | .insert_rval key val => some (m.insert_rval movedFrom key val).2
  | .subscript key =>
    match m.op_subscript key with
    | .ok (_, m1) => some m1
    | .error _ => none
  | .subscript_assign key w =>
    match m.op_subscript key with
    | .ok (position, m1) => some (m1.assign position w)
    | .error _ => none
  | .subscript_rval key =>
    match m.op_subscript_rval key with
    | .ok (_, m1) => some m1
    | .error _ => none
  | .subscript_rval_assign key w =>
    match m.op_subscript_rval key with
    | .ok (position, m1) => some (m1.assign position w)
    | .error _ => none
  | .at_const key =>
    match m.at_const key with
    | .error .undefined_behaviour => none
    | _ => some m
  | .at_mut key =>
    match m.at_mut key with
    | (.error .undefined_behaviour, _) => none
    | (_, m1) => some m1
  | .at_assign key w =>
    match m.at_mut key with
    | (.ok position, m1) => some (m1.assign position w)
    | (.error .out_of_range, m1) => some m1
    | (.error .undefined_behaviour, _) => none

/-- The object after a sequence of statements, executed left to right. -/
def run [DecidableEq K] [Inhabited V] (movedFrom : K → K) :
    VectorMap K V → List (Op K V) → Option (VectorMap K V)
  | m, [] => some m
  | m, op :: ops =>
    match step movedFrom m op with
    | some m1 => run movedFrom m1 ops
    | none => none

/-- The loop `for (k, v) in kvs: map.insert(k, v)` of a client (as in `main`):
the results of the calls in order, and the object after the loop. -/
def insertAll [DecidableEq K] :
    VectorMap K V → List (K × V) → List (K × Bool) × VectorMap K V
  | m, [] => ([], m)
  | m, kv :: rest =>
    let r := m.insert kv.1 kv.2
    let rs := insertAll r.2 rest
    (r.1 :: rs.1, rs.2)

end VectorMap

/-- The data members of the partial specialization `VectorMap<bool, ValueType>`. -/
structure VectorMapBool (V : Type) where
  trueVal_ : V
  falseVal_ : V
  deriving DecidableEq

namespace VectorMapBool

variable {V : Type}

/-- The value-initialised object `VectorMap<bool, ValueType> {}` (as
`VectorMap<bool, double> {}` in `main`): value-initialisation zero-initialises the
scalar members and default-constructs the class-type ones, so both members are
`ValueType {}`. -/
def value_initialised [Inhabited V] : VectorMapBool V := ⟨default, default⟩

/-- The default-initialised object `VectorMap<bool, ValueType> map;` (as
`VectorMap<bool, char> trueToChar;` in `checkAtForVectorMapOfBool`). The class
declares no constructor and no member initialiser, so `trueVal_` and `falseVal_`
are default-initialised themselves: a class-type `ValueType` (`std::string`) runs
its default constructor and holds `ValueType {}`; a scalar `ValueType` (`char`,
`double`) is left uninitialised and holds what its storage held before,
`stored_true` and `stored_false` (C++ calls such a value indeterminate; reading
it as the stored value is the mildest outcome). -/
def default_initialised [Inhabited V] (scalar : Bool) (stored_true stored_false : V) :
    VectorMapBool V :=
  if scalar then ⟨stored_true, stored_false⟩ else ⟨default, default⟩

/-- The expression `key ? trueVal_ : falseVal_` read as a value. -/
def selected (m : VectorMapBool V) (key : Bool) : V :=
  if key then m.trueVal_ else m.falseVal_

/-- What a `ValueType&` into the object can denote. -/
inductive Slot where
  | trueVal
  | falseVal
  deriving DecidableEq

/-- Reading through a `ValueType&`. -/
def deref (m : VectorMapBool V) : Slot → V
  | .trueVal => m.trueVal_
  | .falseVal => m.falseVal_

/-- The assignment `ref = w` through a `ValueType&`. -/
def assign (m : VectorMapBool V) (ref : Slot) (w : V) : VectorMapBool V :=
  match ref with
  | .trueVal => ⟨w, m.falseVal_⟩
  | .falseVal => ⟨m.trueVal_, w⟩

/-- The member `insert(bool key, const ValueType& val)`; `!=` on `ValueType` is the
negation of the decidable equality. -/
def insert [DecidableEq V] [Inhabited V] (m : VectorMapBool V) (key : Bool) (val : V) :
    (Bool × Bool) × VectorMapBool V :=
  if (key = true ∧ m.trueVal_ ≠ default) ∨ (key = false ∧ m.falseVal_ ≠ default) then
    ((key, false), m)
  else if key then
    ((key, true), ⟨val, m.falseVal_⟩)
  else
    ((key, true), ⟨m.trueVal_, val⟩)

/-- The member `insert(bool key, const ValueType&& val)`: `std::move` of a const
object selects the copy assignment, so the stored value is `val`. -/
def insert_rval [DecidableEq V] [Inhabited V] (m : VectorMapBool V) (key : Bool) (val : V) :
    (Bool × Bool) × VectorMapBool V :=
  if (key = true ∧ m.trueVal_ ≠ default) ∨ (key = false ∧ m.falseVal_ ≠ default) then
    ((key, false), m)
  else if key then
    ((key, true), ⟨val, m.falseVal_⟩)
  else
    ((key, true), ⟨m.trueVal_, val⟩)

/-- The member `operator[](bool key)`: the referenced slot and the object after the
call. -/
def op_subscript (m : VectorMapBool V) (key : Bool) : Slot × VectorMapBool V :=
  (if key then .trueVal else .falseVal, m)

/-- The member `at(bool key) const`: the value read through the returned
`const ValueType&`. -/
def at_const [DecidableEq V] [Inhabited V] (m : VectorMapBool V) (key : Bool) :
    Except VectorMap.Error V :=
  if key = true ∧ m.trueVal_ = default then
    .error .out_of_range
  else if key = false ∧ m.falseVal_ = default then
    .error .out_of_range
  else
    .ok (if key then m.trueVal_ else m.falseVal_)

/-- The member `at(bool key)` of a non-const object: the referenced slot, and the
object after the call. -/
def at_mut [DecidableEq V] [Inhabited V] (m : VectorMapBool V) (key : Bool) :
    Except VectorMap.Error Slot × VectorMapBool V :=
  if key = true ∧ m.trueVal_ = default then
    (.error .out_of_range, m)
  else if key = false ∧ m.falseVal_ = default then
    (.error .out_of_range, m)
  else
    (.ok (if key then .trueVal else .falseVal), m)

/-- The loop `for (key, value) in kvs: map.insert(key, value)` of a client (as in
`checkInsertForVectorMapOfBool`): the results of the calls in order, and the
object after the loop. -/
def insertAll [DecidableEq V] [Inhabited V] :
    VectorMapBool V → List (Bool × V) → List (Bool × Bool) × VectorMapBool V
  | m, [] => ([], m)
  | m, kv :: rest =>
    let r := m.insert kv.1 kv.2
    let rs := insertAll r.2 rest
    (r.1 :: rs.1, rs.2)

end VectorMapBool

/-- The C++ type `char` as far as the container sees it: a character with an
equality, whose value-initialised object `char {}` is the null character. -/
structure CChar where
  c : Char
  deriving DecidableEq

instance : Inhabited CChar := ⟨⟨Char.ofNat 0⟩⟩

/-- The types a `VectorMap` is instantiated with as `KeyType`, as names;
`std::is_same_v` is the equality of names. -/
inductive CppType where
  | int
  | unsigned
  | bool
  | char
  | double
  | string
  | other (name : String)
  deriving DecidableEq

namespace CppType

/-- The static member function `isIntKey()` of the class `VectorMap<K, ValueType>`
selects: `return false` in the specialization for `bool`,
`std::is_same_v<int, KeyType>` in the primary template. A call `map.isIntKey()`
evaluates and discards its object expression. -/
def isIntKey (K : CppType) {M : Type} (_object : M) : Bool :=
  match K with
  | .bool => false
  | K => decide (CppType.int = K)

/-- The static data member `is_int_key` of the class `VectorMap<K, ValueType>`
selects: `false` in the specialization for `bool`, `std::is_same_v<int, KeyType>` in
the primary template. -/
def is_int_key (K : CppType) : Bool :=
  match K with
  | .bool => false
  | K => decide (CppType.int = K)

/-- The variable template `is_int_key_v<KeyType>`, which is
`VectorMap<KeyType, KeyType>::is_int_key`. -/
def is_int_key_v (K : CppType) : Bool := is_int_key K

end CppType

namespace VectorMap

variable {K V : Type}

/-- The `(i, val)` pairs the first loop of `main` passes to `map.insert(i, val)`:
`i` runs from 0 while `i < 4`, `val` starts at the character a and is incremented
with `i`. The `int` values 0 to 3 convert to the `unsigned` keys 0 to 3. -/
def main_pairs : List (Nat × CChar) :=
  (List.range 4).map fun i => (i, ⟨Char.ofNat ('a'.toNat + i)⟩)

/-- The object `map` of `main`, a `VectorMap<unsigned, char>`, after that loop. -/
def main_map : VectorMap Nat CChar := (insertAll empty main_pairs).2

/-! ## Facts about the linear search -/

theorem std_find_eq_indexOf [DecidableEq K] (l : List K) (key : K) :
    std_find l key = l.indexOf key := by
  induction l with
  | nil => rfl
  | cons x xs ih =>
    by_cases h : x = key
    · simp [std_find, h]
    · simp [std_find, h, List.indexOf_cons, ih]

theorem std_find_le [DecidableEq K] (l : List K) (key : K) :
    std_find l key ≤ l.length := by
  rw [std_find_eq_indexOf]; exact List.indexOf_le_length

theorem std_find_eq_length_iff [DecidableEq K] (l : List K) (key : K) :
    std_find l key = l.length ↔ key ∉ l := by
  rw [std_find_eq_indexOf]; exact List.indexOf_eq_length

theorem std_find_lt_iff [DecidableEq K] (l : List K) (key : K) :
    std_find l key < l.length ↔ key ∈ l := by
  rw [std_find_eq_indexOf]; exact List.indexOf_lt_length

theorem std_find_getElem? [DecidableEq K] (l : List K) (key : K) (h : key ∈ l) :
    l[std_find l key]? = some key := by
  induction l with
  | nil => simp at h
  | cons x xs ih =>
    by_cases hx : x = key
    · simp [std_find, hx]
    · have : key ∈ xs := by
        rcases List.mem_cons.mp h with h1 | h1
        · exact absurd h1.symm hx
        · exact h1
      simp [std_find, hx, ih this]

theorem std_find_first [DecidableEq K] (l : List K) (key : K) (j : Nat)
    (hj : j < std_find l key) : l[j]? ≠ some key := by
  induction l generalizing j with
  | nil => simp
  | cons x xs ih =>
    by_cases hx : x = key
    · simp [std_find, hx] at hj
    · simp only [std_find, hx, if_false] at hj
      cases j with
      | zero => simpa using hx
      | succ j => simpa using ih j (by omega)

theorem std_find_append_of_mem [DecidableEq K] (l l2 : List K) (key : K) (h : key ∈ l) :
    std_find (l ++ l2) key = std_find l key := by
  induction l with
  | nil => simp at h
  | cons x xs ih =>
    by_cases hx : x = key
    · simp [std_find, hx]
    · have : key ∈ xs := by
        rcases List.mem_cons.mp h with h1 | h1
        · exact absurd h1.symm hx
        · exact h1
      simp [std_find, hx, ih this]

theorem std_find_append_self [DecidableEq K] (l : List K) (key : K) (h : key ∉ l) :
    std_find (l ++ [key]) key = l.length := by
  induction l with
  | nil => simp [std_find]
  | cons x xs ih =>
    have hx : x ≠ key := fun e => h (by simp [e])
    have hxs : key ∉ xs := fun e => h (by simp [e])
    simp [std_find, hx, ih hxs]

theorem std_find_of_nodup [DecidableEq K] (l : List K) (hl : l.Nodup) (i : Nat) (key : K)
    (h : l[i]? = some key) : std_find l key = i := by
  induction l generalizing i with
  | nil => simp at h
  | cons x xs ih =>
    rw [List.nodup_cons] at hl
    cases i with
    | zero =>
      simp at h
      simp [std_find, h]
    | succ i =>
      simp at h
      have hmem : key ∈ xs := List.getElem?_mem h
      have hx : x ≠ key := fun e => hl.1 (e ▸ hmem)
      simp [std_find, hx, ih hl.2 i h]

/-! ## Facts about the member functions -/

theorem op_subscript_rval_eq [DecidableEq K] [Inhabited V] (m : VectorMap K V) (key : K) :
    m.op_subscript_rval key = m.op_subscript key := rfl

theorem insert_of_not_mem [DecidableEq K] (m : VectorMap K V) (key : K) (val : V)
    (h : key ∉ m.keys_) :
    m.insert key val = ((key, true), ⟨m.keys_ ++ [key], m.values_ ++ [val]⟩) := by
  simp [insert, (std_find_eq_length_iff m.keys_ key).mpr h]

theorem insert_of_mem [DecidableEq K] (m : VectorMap K V) (key : K) (val : V)
    (h : key ∈ m.keys_) : m.insert key val = ((key, false), m) := by
  have hne : std_find m.keys_ key ≠ m.keys_.length :=
    fun e => (std_find_eq_length_iff m.keys_ key).mp e h
  simp [insert, hne]

theorem insert_rval_snd [DecidableEq K] (movedFrom : K → K) (m : VectorMap K V) (key : K)
    (val : V) : (m.insert_rval movedFrom key val).2 = (m.insert key val).2 := by
  unfold insert_rval insert
  by_cases h : std_find m.keys_ key = m.keys_.length <;> simp [h]

theorem op_subscript_of_not_mem [DecidableEq K] [Inhabited V] (m : VectorMap K V) (key : K)
    (h : key ∉ m.keys_) :
    m.op_subscript key
      = .ok (m.values_.length, ⟨m.keys_ ++ [key], m.values_ ++ [default]⟩) := by
  simp [op_subscript, (std_find_eq_length_iff m.keys_ key).mpr h]

theorem op_subscript_of_mem [DecidableEq K] [Inhabited V] (m : VectorMap K V) (key : K)
    (hlen : m.keys_.length = m.values_.length) (h : key ∈ m.keys_) :
    m.op_subscript key = .ok (std_find m.keys_ key, m) := by
  have hlt : std_find m.keys_ key < m.keys_.length := (std_find_lt_iff m.keys_ key).mpr h
  have hne : std_find m.keys_ key ≠ m.keys_.length := by omega
  have hlt2 : std_find m.keys_ key < m.values_.length := by omega
  simp [op_subscript, hne, slot, hlt2, Except.map]

theorem at_const_of_not_mem [DecidableEq K] (m : VectorMap K V) (key : K)
    (h : key ∉ m.keys_) : m.at_const key = .error .out_of_range := by
  simp [at_const, (std_find_eq_length_iff m.keys_ key).mpr h]

theorem at_const_of_mem [DecidableEq K] (m : VectorMap K V) (key : K)
    (hlen : m.keys_.length = m.values_.length) (h : key ∈ m.keys_) :
    ∃ v, m.values_[std_find m.keys_ key]? = some v ∧ m.at_const key = .ok v := by
  have hlt : std_find m.keys_ key < m.keys_.length := (std_find_lt_iff m.keys_ key).mpr h
  have hne : std_find m.keys_ key ≠ m.keys_.length := by omega
  have hlt2 : std_find m.keys_ key < m.values_.length := by omega
  refine ⟨m.values_[std_find m.keys_ key], List.getElem?_eq_getElem hlt2, ?_⟩
  simp [at_const, hne, List.getElem?_eq_getElem hlt2]

theorem at_mut_of_not_mem [DecidableEq K] (m : VectorMap K V) (key : K)
    (h : key ∉ m.keys_) : m.at_mut key = (.error .out_of_range, m) := by
  simp [at_mut, (std_find_eq_length_iff m.keys_ key).mpr h]

theorem at_mut_of_mem [DecidableEq K] (m : VectorMap K V) (key : K)
    (hlen : m.keys_.length = m.values_.length) (h : key ∈ m.keys_) :
    m.at_mut key = (.ok (std_find m.keys_ key), m) := by
  have hlt : std_find m.keys_ key < m.keys_.length := (std_find_lt_iff m.keys_ key).mpr h
  have hne : std_find m.keys_ key ≠ m.keys_.length := by omega
  have hlt2 : std_find m.keys_ key < m.values_.length := by omega
  simp [at_mut, hne, slot, hlt2]

theorem at_mut_snd [DecidableEq K] (m : VectorMap K V) (key : K) : (m.at_mut key).2 = m := by
  unfold at_mut
  by_cases h : std_find m.keys_ key = m.keys_.length <;> simp [h]

/-! ## Facts about statements and reachable states -/

theorem assign_keys (m : VectorMap K V) (p : Nat) (w : V) : (m.assign p w).keys_ = m.keys_ := rfl

theorem assign_length (m : VectorMap K V) (p : Nat) (w : V) :
    (m.assign p w).values_.length = m.values_.length := by
  simp [assign]

theorem insert_snd_cases [DecidableEq K] (m : VectorMap K V) (key : K) (val : V) :
    (m.insert key val).2 = m ∨
    (key ∉ m.keys_ ∧ (m.insert key val).2 = ⟨m.keys_ ++ [key], m.values_ ++ [val]⟩) := by
  by_cases h : key ∈ m.keys_
  · left
    rw [insert_of_mem m key val h]
  · right
    rw [insert_of_not_mem m key val h]
    exact ⟨h, rfl⟩

theorem op_subscript_cases [DecidableEq K] [Inhabited V] (m : VectorMap K V) (key : K)
    (hlen : m.keys_.length = m.values_.length) :
    (key ∈ m.keys_ ∧ m.op_subscript key = .ok (std_find m.keys_ key, m)) ∨
    (key ∉ m.keys_ ∧ m.op_subscript key
      = .ok (m.values_.length, ⟨m.keys_ ++ [key], m.values_ ++ [default]⟩)) := by
  by_cases h : key ∈ m.keys_
  · exact Or.inl ⟨h, op_subscript_of_mem m key hlen h⟩
  · exact Or.inr ⟨h, op_subscript_of_not_mem m key h⟩

/-- Every statement has a next state when the two vectors have one length; the
next state keeps that, and its keys are the old ones or the old ones and one new
key at the end. -/
theorem step_total [DecidableEq K] [Inhabited V] (movedFrom : K → K) (m : VectorMap K V)
    (hlen : m.keys_.length = m.values_.length) (op : Op K V) :
    ∃ m1, step movedFrom m op = some m1 ∧ m1.keys_.length = m1.values_.length ∧
      (m1.keys_ = m.keys_ ∨ ∃ key, key ∉ m.keys_ ∧ m1.keys_ = m.keys_ ++ [key]) := by
  have happ : ∀ (key : K) (val : V),
      (m.keys_ ++ [key]).length = (m.values_ ++ [val]).length := by
    intro key val
    simp [hlen]
  cases op with
  | insert key val =>
    refine ⟨(m.insert key val).2, rfl, ?_⟩
    rcases insert_snd_cases m key val with h | ⟨hk, h⟩
    · rw [h]; exact ⟨hlen, Or.inl rfl⟩
    · rw [h]; exact ⟨happ key val, Or.inr ⟨key, hk, rfl⟩⟩
  | insert_rval key val =>
    refine ⟨(m.insert key val).2, ?_, ?_⟩
    · simp [step, insert_rval_snd]
    · rcases insert_snd_cases m key val with h | ⟨hk, h⟩
      · rw [h]; exact ⟨hlen, Or.inl rfl⟩
      · rw [h]; exact ⟨happ key val, Or.inr ⟨key, hk, rfl⟩⟩
  | subscript key =>
    rcases op_subscript_cases m key hlen with ⟨_, h⟩ | ⟨hk, h⟩
    · exact ⟨m, by simp [step, h], hlen, Or.inl rfl⟩
    · exact ⟨⟨m.keys_ ++ [key], m.values_ ++ [default]⟩, by simp [step, h],
        happ key default, Or.inr ⟨key, hk, rfl⟩⟩
  | subscript_assign key w =>
    rcases op_subscript_cases m key hlen with ⟨_, h⟩ | ⟨hk, h⟩
    · refine ⟨m.assign (std_find m.keys_ key) w, by simp [step, h], ?_, Or.inl rfl⟩
      rw [assign_keys, assign_length]; exact hlen
    · refine ⟨assign ⟨m.keys_ ++ [key], m.values_ ++ [default]⟩ m.values_.length w,
        by simp [step, h], ?_, Or.inr ⟨key, hk, rfl⟩⟩
      rw [assign_keys, assign_length]; exact happ key default
  | subscript_rval key =>
    rcases op_subscript_cases m key hlen with ⟨_, h⟩ | ⟨hk, h⟩
    · exact ⟨m, by simp [step, op_subscript_rval_eq, h], hlen, Or.inl rfl⟩
    · exact ⟨⟨m.keys_ ++ [key], m.values_ ++ [default]⟩,
        by simp [step, op_subscript_rval_eq, h], happ key default, Or.inr ⟨key, hk, rfl⟩⟩
  | subscript_rval_assign key w =>
    rcases op_subscript_cases m key hlen with ⟨_, h⟩ | ⟨hk, h⟩
    · refine ⟨m.assign (std_find m.keys_ key) w, by simp [step, op_subscript_rval_eq, h],
        ?_, Or.inl rfl⟩
      rw [assign_keys, assign_length]; exact hlen
    · refine ⟨assign ⟨m.keys_ ++ [key], m.values_ ++ [default]⟩ m.values_.length w,
        by simp [step, op_subscript_rval_eq, h], ?_, Or.inr ⟨key, hk, rfl⟩⟩
      rw [assign_keys, assign_length]; exact happ key default
  | at_const key =>
    refine ⟨m, ?_, hlen, Or.inl rfl⟩
    by_cases hk : key ∈ m.keys_
    · obtain ⟨v, _, hv⟩ := at_const_of_mem m key hlen hk
      simp [step, hv]
    · simp [step, at_const_of_not_mem m key hk]
  | at_mut key =>
    refine ⟨m, ?_, hlen, Or.inl rfl⟩
    by_cases hk : key ∈ m.keys_
    · simp [step, at_mut_of_mem m key hlen hk]
    · simp [step, at_mut_of_not_mem m key hk]
  | at_assign key w =>
    by_cases hk : key ∈ m.keys_
    · refine ⟨m.assign (std_find m.keys_ key) w,
        by simp [step, at_mut_of_mem m key hlen hk], ?_, Or.inl rfl⟩
      rw [assign_keys, assign_length]; exact hlen
    · exact ⟨m, by simp [step, at_mut_of_not_mem m key hk], hlen, Or.inl rfl⟩

theorem step_invariant [DecidableEq K] [Inhabited V] (movedFrom : K → K) (m : VectorMap K V)
    (hinv : Invariant m) (op : Op K V) :
    ∃ m1, step movedFrom m op = some m1 ∧ Invariant m1 := by
  obtain ⟨m1, hstep, hlen1, hkeys⟩ := step_total movedFrom m hinv.1 op
  refine ⟨m1, hstep, hlen1, ?_⟩
  rcases hkeys with h | ⟨key, hk, h⟩
  · rw [h]; exact hinv.2
  · rw [h]
    exact List.Nodup.append hinv.2 (List.nodup_singleton key) (by simpa using hk)

theorem run_invariant [DecidableEq K] [Inhabited V] (movedFrom : K → K)
    (ops : List (Op K V)) (m : VectorMap K V) (hinv : Invariant m) :
    ∃ m1, run movedFrom m ops = some m1 ∧ Invariant m1 := by
  induction ops generalizing m with
  | nil => exact ⟨m, rfl, hinv⟩
  | cons op ops ih =>
    obtain ⟨m1, hstep, hinv1⟩ := step_invariant movedFrom m hinv op
    obtain ⟨m2, hrun, hinv2⟩ := ih m1 hinv1
    exact ⟨m2, by simp [run, hstep, hrun], hinv2⟩

theorem invariant_empty : Invariant (empty : VectorMap K V) :=
  ⟨rfl, List.nodup_nil⟩

theorem at_const_of_index [DecidableEq K] (m : VectorMap K V) (hinv : Invariant m)
    (i : Nat) (key : K) (v : V) (hk : m.keys_[i]? = some key) (hv : m.values_[i]? = some v) :
    m.at_const key = .ok v := by
  have hmem : key ∈ m.keys_ := List.getElem?_mem hk
  obtain ⟨u, hu1, hu2⟩ := at_const_of_mem m key hinv.1 hmem
  rw [std_find_of_nodup m.keys_ hinv.2 i key hk, hv] at hu1
  cases hu1
  exact hu2

theorem run_length [DecidableEq K] [Inhabited V] (movedFrom : K → K)
    (ops : List (Op K V)) (m : VectorMap K V) (hlen : m.keys_.length = m.values_.length) :
    ∃ m1, run movedFrom m ops = some m1 ∧ m1.keys_.length = m1.values_.length := by
  induction ops generalizing m with
  | nil => exact ⟨m, rfl, hlen⟩
  | cons op ops ih =>
    obtain ⟨m1, hstep, hlen1, _⟩ := step_total movedFrom m hlen op
    obtain ⟨m2, hrun, hlen2⟩ := ih m1 hlen1
    exact ⟨m2, by simp [run, hstep, hrun], hlen2⟩

theorem op_subscript_length [DecidableEq K] [Inhabited V] (m : VectorMap K V) (k : K)
    (hlen : m.keys_.length = m.values_.length) :
    ∃ p m1, m.op_subscript k = .ok (p, m1) ∧ m1.keys_.length = m1.values_.length ∧
      ∀ w, (m1.assign p w).keys_.length = (m1.assign p w).values_.length := by
  rcases op_subscript_cases m k hlen with ⟨_, h⟩ | ⟨_, h⟩
  · refine ⟨std_find m.keys_ k, m, h, hlen, ?_⟩
    intro w
    rw [assign_keys, assign_length]; exact hlen
  · have happ : (m.keys_ ++ [k]).length = (m.values_ ++ [(default : V)]).length := by
      simp [hlen]
    refine ⟨m.values_.length, ⟨m.keys_ ++ [k], m.values_ ++ [default]⟩, h, happ, ?_⟩
    intro w
    rw [assign_keys, assign_length]; exact happ

theorem insertAll_fresh [DecidableEq K] (kvs : List (K × V)) (m : VectorMap K V)
    (hnd : (kvs.map Prod.fst).Nodup) (hfresh : ∀ k ∈ kvs.map Prod.fst, k ∉ m.keys_) :
    insertAll m kvs = (kvs.map (fun kv => (kv.1, true)),
      ⟨m.keys_ ++ kvs.map Prod.fst, m.values_ ++ kvs.map Prod.snd⟩) := by
  induction kvs generalizing m with
  | nil => simp [insertAll]
  | cons kv rest ih =>
    rw [List.map_cons, List.nodup_cons] at hnd
    have hk : kv.1 ∉ m.keys_ := hfresh kv.1 (by simp)
    have hfresh1 : ∀ k ∈ rest.map Prod.fst, k ∉ m.keys_ ++ [kv.1] := by
      intro k hkr hmem
      rcases List.mem_append.mp hmem with h1 | h1
      · exact hfresh k (by simp only [List.map_cons, List.mem_cons]; exact Or.inr hkr) h1
      · have : k = kv.1 := by simpa using h1
        exact hnd.1 (this ▸ hkr)
    have hrec := ih ⟨m.keys_ ++ [kv.1], m.values_ ++ [kv.2]⟩ hnd.2 hfresh1
    simp only [insertAll, insert_of_not_mem m kv.1 kv.2 hk, hrec]
    simp

/-- What an assignment through the reference to the slot found for a present key
does: the key then reads the assigned value through every accessor, and every
other slot and every other key reads as before. -/
theorem assign_found [DecidableEq K] [Inhabited V] (m : VectorMap K V)
    (hlen : m.keys_.length = m.values_.length) (k : K) (hk : k ∈ m.keys_) (w : V) :
    (m.assign (std_find m.keys_ k) w).at_const k = .ok w ∧
    (m.assign (std_find m.keys_ k) w).at_mut k
      = (.ok (std_find m.keys_ k), m.assign (std_find m.keys_ k) w) ∧
    (m.assign (std_find m.keys_ k) w).op_subscript k
      = .ok (std_find m.keys_ k, m.assign (std_find m.keys_ k) w) ∧
    deref (m.assign (std_find m.keys_ k) w) (std_find m.keys_ k) = some w ∧
    (∀ k2, k2 ≠ k → (m.assign (std_find m.keys_ k) w).at_const k2 = m.at_const k2) ∧
    (∀ i, i ≠ std_find m.keys_ k →
      (m.assign (std_find m.keys_ k) w).values_[i]? = m.values_[i]?) := by
  have hlt : std_find m.keys_ k < m.keys_.length := (std_find_lt_iff m.keys_ k).mpr hk
  have hlt2 : std_find m.keys_ k < m.values_.length := by omega
  have hlen2 : (m.assign (std_find m.keys_ k) w).keys_.length
      = (m.assign (std_find m.keys_ k) w).values_.length := by
    rw [assign_keys, assign_length]; exact hlen
  have hread : (m.assign (std_find m.keys_ k) w).values_[std_find m.keys_ k]? = some w := by
    simp [assign, hlt2]
  have hother : ∀ i, i ≠ std_find m.keys_ k →
      (m.assign (std_find m.keys_ k) w).values_[i]? = m.values_[i]? := by
    intro i hi
    simp only [assign]
    exact List.getElem?_set_ne (Ne.symm hi)
  refine ⟨?_, ?_, ?_, hread, ?_, hother⟩
  · obtain ⟨u, hu1, hu2⟩ := at_const_of_mem (m.assign (std_find m.keys_ k) w) k hlen2 hk
    rw [assign_keys, hread] at hu1
    cases hu1
    exact hu2
  · exact at_mut_of_mem (m.assign (std_find m.keys_ k) w) k hlen2 hk
  · exact op_subscript_of_mem (m.assign (std_find m.keys_ k) w) k hlen2 hk
  · intro k2 hne
    have hidx : std_find m.keys_ k2 ≠ std_find m.keys_ k := by
      intro e
      have h2 : k2 ∈ m.keys_ := (std_find_lt_iff m.keys_ k2).mp (by omega)
      have g1 := std_find_getElem? m.keys_ k hk
      have g2 := std_find_getElem? m.keys_ k2 h2
      rw [e, g1] at g2
      exact hne (Option.some.inj g2).symm
    unfold at_const
    simp only [assign_keys]
    rw [hother _ hidx]

theorem at_const_append_of_ne [DecidableEq K] (m : VectorMap K V)
    (hlen : m.keys_.length = m.values_.length) (k k2 : K) (d : V) (hne : k2 ≠ k) :
    at_const ⟨m.keys_ ++ [k], m.values_ ++ [d]⟩ k2 = m.at_const k2 := by
  by_cases h2 : k2 ∈ m.keys_
  · have hlt : std_find m.keys_ k2 < m.keys_.length := (std_find_lt_iff m.keys_ k2).mpr h2
    have hlt2 : std_find m.keys_ k2 < m.values_.length := by omega
    have hne1 : std_find m.keys_ k2 ≠ m.keys_.length := by omega
    have hne2 : std_find m.keys_ k2 ≠ m.keys_.length + 1 := by omega
    simp [at_const, std_find_append_of_mem m.keys_ [k] k2 h2, hne1, hne2,
      List.getElem?_append_left hlt2]
  · have h3 : k2 ∉ m.keys_ ++ [k] := by
      simp only [List.mem_append, List.mem_singleton, not_or]
      exact ⟨h2, hne⟩
    rw [at_const_of_not_mem m k2 h2, at_const_of_not_mem _ k2 h3]

/-! ## The claims -/

/-- C1. Generic mapping, `insert` on an absent key: when `k` equals no element of
`keys_`, `insert(k, v)` returns `(k, true)`, the key vector becomes `keys_ ++ [k]`
and the value vector `values_ ++ [v]`; every earlier entry keeps its index and
content. -/
theorem insert_absent [DecidableEq K] (m : VectorMap K V) (k : K) (v : V)
    (h : ∀ x ∈ m.keys_, x ≠ k) :
    (m.insert k v).1 = (k, true) ∧
    (m.insert k v).2.keys_ = m.keys_ ++ [k] ∧
    (m.insert k v).2.values_ = m.values_ ++ [v] ∧
    (∀ i, i < m.keys_.length → (m.insert k v).2.keys_[i]? = m.keys_[i]?) ∧
    (∀ i, i < m.values_.length → (m.insert k v).2.values_[i]? = m.values_[i]?) := by
  have hk : k ∉ m.keys_ := fun hm => h k hm rfl
  rw [insert_of_not_mem m k v hk]
  refine ⟨rfl, rfl, rfl, ?_, ?_⟩
  · intro i hi
    exact List.getElem?_append_left hi
  · intro i hi
    exact List.getElem?_append_left hi

/-- Witness of C1: inserting key 2 into the mapping holding keys 0 and 1. -/
theorem insert_absent_witness :
    (∀ x ∈ (⟨[0, 1], ['a', 'b']⟩ : VectorMap Nat Char).keys_, x ≠ 2) ∧
    ((⟨[0, 1], ['a', 'b']⟩ : VectorMap Nat Char).insert 2 'c').1 = (2, true) ∧
    ((⟨[0, 1], ['a', 'b']⟩ : VectorMap Nat Char).insert 2 'c').2.keys_ = [0, 1] ++ [2] :=
  ⟨by decide,
   (insert_absent ⟨[0, 1], ['a', 'b']⟩ 2 'c' (by decide)).1,
   (insert_absent ⟨[0, 1], ['a', 'b']⟩ 2 'c' (by decide)).2.1⟩

/-- C2. Generic mapping, `insert` on a present key: when `k` equals some element of
`keys_`, `insert(k, v)` returns `(k, false)` and leaves `keys_` and `values_`
exactly as they were, whatever `v` is. -/
theorem insert_present [DecidableEq K] (m : VectorMap K V) (k : K) (v : V)
    (h : ∃ x ∈ m.keys_, x = k) :
    (m.insert k v).1 = (k, false) ∧
    (m.insert k v).2.keys_ = m.keys_ ∧
    (m.insert k v).2.values_ = m.values_ := by
  obtain ⟨x, hx, rfl⟩ := h
  rw [insert_of_mem m x v hx]
  exact ⟨rfl, rfl, rfl⟩

/-- Witness of C2: re-inserting key 1 with another value keeps `'b'`. -/
theorem insert_present_witness :
    (∃ x ∈ (⟨[0, 1], ['a', 'b']⟩ : VectorMap Nat Char).keys_, x = 1) ∧
    ((⟨[0, 1], ['a', 'b']⟩ : VectorMap Nat Char).insert 1 'z').1 = (1, false) ∧
    ((⟨[0, 1], ['a', 'b']⟩ : VectorMap Nat Char).insert 1 'z').2.values_ = ['a', 'b'] :=
  ⟨by decide,
   (insert_present ⟨[0, 1], ['a', 'b']⟩ 1 'z' (by decide)).1,
   (insert_present ⟨[0, 1], ['a', 'b']⟩ 1 'z' (by decide)).2.2⟩

/-- C3. Generic mapping, `at`: on a mapping whose two vectors have the same length,
both overloads of `at(k)` throw `std::out_of_range` exactly when no element of
`keys_` equals `k`; the non-const overload leaves the object unchanged whether it
throws or not (the const overload cannot change it); and when `k` is present, for
the first index `i` with `keys_[i] == k`, the const overload returns `values_[i]`
and the non-const one a reference to slot `i`. -/
theorem at_spec [DecidableEq K] (m : VectorMap K V)
    (hlen : m.keys_.length = m.values_.length) (k : K) :
    (m.at_const k = .error .out_of_range ↔ ∀ x ∈ m.keys_, x ≠ k) ∧
    ((m.at_mut k).1 = .error .out_of_range ↔ ∀ x ∈ m.keys_, x ≠ k) ∧
    (m.at_mut k).2 = m ∧
    ((∃ x ∈ m.keys_, x = k) →
      ∃ i v, m.keys_[i]? = some k ∧ (∀ j, j < i → m.keys_[j]? ≠ some k) ∧
        m.values_[i]? = some v ∧ m.at_const k = .ok v ∧
        (m.at_mut k).1 = .ok i ∧ deref (m.at_mut k).2 i = some v) := by
  have hiff : (∀ x ∈ m.keys_, x ≠ k) ↔ k ∉ m.keys_ :=
    ⟨fun h hm => h k hm rfl, fun h x hx e => h (e ▸ hx)⟩
  rw [hiff]
  refine ⟨?_, ?_, at_mut_snd m k, ?_⟩
  · constructor
    · intro he hm
      obtain ⟨v, _, hv⟩ := at_const_of_mem m k hlen hm
      rw [hv] at he
      cases he
    · exact at_const_of_not_mem m k
  · constructor
    · intro he hm
      rw [at_mut_of_mem m k hlen hm] at he
      cases he
    · intro h
      rw [at_mut_of_not_mem m k h]
  · rintro ⟨x, hx, rfl⟩
    obtain ⟨v, hv1, hv2⟩ := at_const_of_mem m x hlen hx
    refine ⟨std_find m.keys_ x, v, std_find_getElem? m.keys_ x hx,
      fun j hj => std_find_first m.keys_ x j hj, hv1, hv2, ?_, ?_⟩
    · rw [at_mut_of_mem m x hlen hx]
    · rw [at_mut_of_mem m x hlen hx]
      exact hv1

/-- Witness of C3: the mapping with keys 0, 1, 1 and values a, b, c; `at(1)` reads
the first match, `at(7)` throws. -/
theorem at_spec_witness :
    (⟨[0, 1, 1], ['a', 'b', 'c']⟩ : VectorMap Nat Char).keys_.length
      = (⟨[0, 1, 1], ['a', 'b', 'c']⟩ : VectorMap Nat Char).values_.length ∧
    ((⟨[0, 1, 1], ['a', 'b', 'c']⟩ : VectorMap Nat Char).at_const 7 = .error .out_of_range ↔
      ∀ x ∈ (⟨[0, 1, 1], ['a', 'b', 'c']⟩ : VectorMap Nat Char).keys_, x ≠ 7) ∧
    (⟨[0, 1, 1], ['a', 'b', 'c']⟩ : VectorMap Nat Char).at_const 1 = .ok 'b' :=
  ⟨rfl, (at_spec (⟨[0, 1, 1], ['a', 'b', 'c']⟩ : VectorMap Nat Char) rfl 7).1, rfl⟩

/-- C4. Generic mapping, `operator[]` on an absent key: when `k` is not in `keys_`,
both overloads succeed, the returned reference reads `ValueType {}`, the key
vector becomes `keys_ ++ [k]` and the value vector `values_ ++ [ValueType {}]`,
so each length grows by exactly one. -/
theorem op_subscript_absent [DecidableEq K] [Inhabited V] (m : VectorMap K V) (k : K)
    (h : k ∉ m.keys_) :
    ∃ p m1, m.op_subscript k = .ok (p, m1) ∧ m.op_subscript_rval k = .ok (p, m1) ∧
      deref m1 p = some default ∧
      m1.keys_ = m.keys_ ++ [k] ∧ m1.values_ = m.values_ ++ [default] ∧
      m1.keys_.length = m.keys_.length + 1 ∧ m1.values_.length = m.values_.length + 1 := by
  refine ⟨m.values_.length, ⟨m.keys_ ++ [k], m.values_ ++ [default]⟩, ?_, ?_, ?_, rfl, rfl, ?_, ?_⟩
  · exact op_subscript_of_not_mem m k h
  · rw [op_subscript_rval_eq]
    exact op_subscript_of_not_mem m k h
  · simp [deref]
  · simp
  · simp

/-- Witness of C4: `map[5]` on the mapping holding keys 0 and 1. -/
theorem op_subscript_absent_witness :
    5 ∉ (⟨[0, 1], ['a', 'b']⟩ : VectorMap Nat Char).keys_ ∧
    ∃ p m1, (⟨[0, 1], ['a', 'b']⟩ : VectorMap Nat Char).op_subscript 5 = .ok (p, m1) ∧
      (⟨[0, 1], ['a', 'b']⟩ : VectorMap Nat Char).op_subscript_rval 5 = .ok (p, m1) ∧
      deref m1 p = some default ∧
      m1.keys_ = [0, 1] ++ [5] ∧ m1.values_ = ['a', 'b'] ++ [default] ∧
      m1.keys_.length = 2 + 1 ∧ m1.values_.length = 2 + 1 :=
  ⟨by decide, op_subscript_absent ⟨[0, 1], ['a', 'b']⟩ 5 (by decide)⟩

/-- C5. Generic mapping, insert/lookup round trip: on a mapping satisfying the
data-model invariant, when `insert(k, v)` returns `inserted = true`, on the
resulting mapping both overloads of `at(k)` succeed with `v`, and both overloads of
`operator[]` on `k` return a reference reading `v` and leave the mapping as it is
(it does not grow). -/
theorem insert_lookup_roundtrip [DecidableEq K] [Inhabited V] (m : VectorMap K V)
    (hinv : Invariant m) (k : K) (v : V) (hins : (m.insert k v).1.2 = true) :
    (m.insert k v).2.at_const k = .ok v ∧
    (∃ p, (m.insert k v).2.at_mut k = (.ok p, (m.insert k v).2) ∧
      deref (m.insert k v).2 p = some v) ∧
    (∃ p, (m.insert k v).2.op_subscript k = .ok (p, (m.insert k v).2) ∧
      deref (m.insert k v).2 p = some v) ∧
    (∃ p, (m.insert k v).2.op_subscript_rval k = .ok (p, (m.insert k v).2) ∧
      deref (m.insert k v).2 p = some v) := by
  have hk : k ∉ m.keys_ := by
    intro hm
    rw [insert_of_mem m k v hm] at hins
    cases hins
  rw [insert_of_not_mem m k v hk]
  have hlen : (m.keys_ ++ [k]).length = (m.values_ ++ [v]).length := by
    simp [hinv.1]
  have hmem : k ∈ m.keys_ ++ [k] := by simp
  have hfind : std_find (m.keys_ ++ [k]) k = m.values_.length := by
    rw [std_find_append_self m.keys_ k hk, hinv.1]
  have hread : (m.values_ ++ [v])[m.values_.length]? = some v := by simp
  refine ⟨?_, ⟨m.values_.length, ?_, ?_⟩, ⟨m.values_.length, ?_, ?_⟩,
    ⟨m.values_.length, ?_, ?_⟩⟩
  · obtain ⟨u, hu1, hu2⟩ := at_const_of_mem ⟨m.keys_ ++ [k], m.values_ ++ [v]⟩ k hlen hmem
    simp only [hfind, hread] at hu1
    cases hu1
    exact hu2
  · rw [at_mut_of_mem ⟨m.keys_ ++ [k], m.values_ ++ [v]⟩ k hlen hmem, hfind]
  · exact hread
  · rw [op_subscript_of_mem ⟨m.keys_ ++ [k], m.values_ ++ [v]⟩ k hlen hmem, hfind]
  · exact hread
  · rw [op_subscript_rval_eq,
      op_subscript_of_mem ⟨m.keys_ ++ [k], m.values_ ++ [v]⟩ k hlen hmem, hfind]
  · exact hread

/-- Witness of C5: inserting (2, c) into the mapping holding keys 0 and 1. -/
theorem insert_lookup_roundtrip_witness :
    Invariant (⟨[0, 1], ['a', 'b']⟩ : VectorMap Nat Char) ∧
    ((⟨[0, 1], ['a', 'b']⟩ : VectorMap Nat Char).insert 2 'c').1.2 = true ∧
    ((⟨[0, 1], ['a', 'b']⟩ : VectorMap Nat Char).insert 2 'c').2.at_const 2 = .ok 'c' :=
  ⟨⟨rfl, by decide⟩, rfl,
   (insert_lookup_roundtrip (⟨[0, 1], ['a', 'b']⟩ : VectorMap Nat Char) ⟨rfl, by decide⟩
     2 'c' rfl).1⟩

/-- C6. Length invariant of the generic mapping: `keys_.size() == values_.size()`
holds for the empty mapping; from a mapping where it holds, both `insert`
overloads, both `operator[]` overloads (which then succeed), both `at` overloads
(which then never index outside `values_`) and an assignment through a reference
returned by `operator[]` or by the non-const `at` all give a mapping where it
holds; hence every sequence of such statements run from the empty mapping is
defined and ends in a mapping where it holds. -/
theorem length_invariant [DecidableEq K] [Inhabited V] (movedFrom : K → K) :
    (empty : VectorMap K V).keys_.length = (empty : VectorMap K V).values_.length ∧
    (∀ m : VectorMap K V, m.keys_.length = m.values_.length →
      (∀ k v, (m.insert k v).2.keys_.length = (m.insert k v).2.values_.length) ∧
      (∀ k v, (m.insert_rval movedFrom k v).2.keys_.length
        = (m.insert_rval movedFrom k v).2.values_.length) ∧
      (∀ k, ∃ p m1, m.op_subscript k = .ok (p, m1) ∧
        m1.keys_.length = m1.values_.length ∧
        ∀ w, (m1.assign p w).keys_.length = (m1.assign p w).values_.length) ∧
      (∀ k, ∃ p m1, m.op_subscript_rval k = .ok (p, m1) ∧
        m1.keys_.length = m1.values_.length ∧
        ∀ w, (m1.assign p w).keys_.length = (m1.assign p w).values_.length) ∧
      (∀ k, m.at_const k ≠ .error .undefined_behaviour) ∧
      (∀ k, (m.at_mut k).1 ≠ .error .undefined_behaviour ∧
        (m.at_mut k).2.keys_.length = (m.at_mut k).2.values_.length ∧
        ∀ p w, (m.at_mut k).1 = .ok p →
          ((m.at_mut k).2.assign p w).keys_.length
            = ((m.at_mut k).2.assign p w).values_.length)) ∧
    (∀ ops : List (Op K V), ∃ m, run movedFrom empty ops = some m ∧
      m.keys_.length = m.values_.length) := by
  refine ⟨rfl, ?_, fun ops => run_length movedFrom ops empty rfl⟩
  intro m hlen
  have hins : ∀ k v, (m.insert k v).2.keys_.length = (m.insert k v).2.values_.length := by
    intro k v
    rcases insert_snd_cases m k v with h | ⟨_, h⟩
    · rw [h]; exact hlen
    · rw [h]; simp [hlen]
  refine ⟨hins, ?_, fun k => op_subscript_length m k hlen, ?_, ?_, ?_⟩
  · intro k v
    rw [insert_rval_snd]
    exact hins k v
  · intro k
    rw [op_subscript_rval_eq]
    exact op_subscript_length m k hlen
  · intro k
    by_cases hk : k ∈ m.keys_
    · obtain ⟨v, _, hv⟩ := at_const_of_mem m k hlen hk
      rw [hv]
      exact fun e => by cases e
    · rw [at_const_of_not_mem m k hk]
      exact fun e => by cases e
  · intro k
    refine ⟨?_, ?_, ?_⟩
    · by_cases hk : k ∈ m.keys_
      · rw [at_mut_of_mem m k hlen hk]
        exact fun e => by cases e
      · rw [at_mut_of_not_mem m k hk]
        exact fun e => by cases e
    · rw [at_mut_snd]; exact hlen
    · intro p w _
      rw [at_mut_snd, assign_keys, assign_length]; exact hlen

/-- C7. No-duplicate-keys invariant of the generic mapping: every sequence of
`insert`, `operator[]` and `at` calls (with or without an assignment through the
returned reference) run from the empty mapping is defined, and in the mapping it
ends in `keys()[i] == keys()[j]` implies `i == j`. -/
theorem no_duplicate_keys [DecidableEq K] [Inhabited V] (movedFrom : K → K)
    (ops : List (Op K V)) :
    ∃ m, run movedFrom empty ops = some m ∧
      ∀ (i j : Nat) (hi : i < (keys m).length) (hj : j < (keys m).length),
        (keys m)[i] = (keys m)[j] → i = j := by
  obtain ⟨m, hrun, hinv⟩ := run_invariant movedFrom ops empty invariant_empty
  refine ⟨m, hrun, ?_⟩
  intro i j hi hj h
  exact (List.Nodup.getElem_inj_iff hinv.2).mp h

/-- C8. Key/value correspondence by index: every sequence of `insert`, `operator[]`
and `at` calls (with or without an assignment through the returned reference) run
from the empty mapping is defined, and in the mapping it ends in, for every index
`i < keys().size()`, `i` is an index of `values()` too and `at(keys()[i])`
succeeds and returns `values()[i]`. -/
theorem key_value_correspondence [DecidableEq K] [Inhabited V] (movedFrom : K → K)
    (ops : List (Op K V)) :
    ∃ m, run movedFrom empty ops = some m ∧
      ∀ (i : Nat) (hi : i < (keys m).length), ∃ hv : i < (values m).length,
        m.at_const ((keys m)[i]) = .ok ((values m)[i]) ∧
        (m.at_mut ((keys m)[i])).1 = .ok i := by
  obtain ⟨m, hrun, hinv⟩ := run_invariant movedFrom ops empty invariant_empty
  refine ⟨m, hrun, ?_⟩
  intro i hi
  have hv : i < m.values_.length := by
    have := hinv.1
    simp only [keys] at hi
    omega
  have hk : m.keys_[i]? = some (m.keys_[i]) := List.getElem?_eq_getElem hi
  refine ⟨hv, ?_, ?_⟩
  · exact at_const_of_index m hinv i _ _ hk (List.getElem?_eq_getElem hv)
  · have hmem : (keys m)[i] ∈ m.keys_ := List.getElem?_mem hk
    rw [at_mut_of_mem m _ hinv.1 hmem]
    exact congrArg Except.ok (std_find_of_nodup m.keys_ hinv.2 i _ hk)

/-- C9. Distinct-key insertion count: inserting the pairs of a list whose keys are
pairwise distinct, in order, into an empty mapping makes every `insert` return
`(key, true)`, leaves `keys()` equal to the list of keys in insertion order (so
its length is the number of keys) and `values()` equal to the list of values;
afterwards `insert` of any of these keys with any value returns `(key, false)`
and leaves the mapping, in particular its length, unchanged. -/
theorem distinct_insertion_count [DecidableEq K] (kvs : List (K × V))
    (hdistinct : (kvs.map Prod.fst).Pairwise (fun a b => a ≠ b)) :
    (insertAll empty kvs).1 = kvs.map (fun kv => (kv.1, true)) ∧
    keys (insertAll empty kvs).2 = kvs.map Prod.fst ∧
    values (insertAll empty kvs).2 = kvs.map Prod.snd ∧
    (keys (insertAll empty kvs).2).length = kvs.length ∧
    ∀ k ∈ kvs.map Prod.fst, ∀ v,
      ((insertAll empty kvs).2.insert k v).1 = (k, false) ∧
      ((insertAll empty kvs).2.insert k v).2 = (insertAll empty kvs).2 ∧
      (keys ((insertAll empty kvs).2.insert k v).2).length
        = (keys (insertAll empty kvs).2).length := by
  have hall := insertAll_fresh kvs (empty : VectorMap K V) hdistinct
    (fun k _ hmem => by simp [empty] at hmem)
  rw [hall]
  refine ⟨rfl, by simp [keys, empty], by simp [values, empty], by simp [keys, empty], ?_⟩
  intro k hk v
  have hmem : k ∈ (⟨(empty : VectorMap K V).keys_ ++ kvs.map Prod.fst,
      (empty : VectorMap K V).values_ ++ kvs.map Prod.snd⟩ : VectorMap K V).keys_ :=
    List.mem_append_right _ hk
  rw [insert_of_mem _ k v hmem]
  exact ⟨rfl, rfl, rfl⟩

/-- Witness of C9: the four inserts of `main`, keys 0 to 3. -/
theorem distinct_insertion_count_witness :
    ([((0 : Nat), 'a'), (1, 'b'), (2, 'c'), (3, 'd')].map Prod.fst).Pairwise
      (fun a b => a ≠ b) ∧
    keys (insertAll empty [((0 : Nat), 'a'), (1, 'b'), (2, 'c'), (3, 'd')]).2
      = [((0 : Nat), 'a'), (1, 'b'), (2, 'c'), (3, 'd')].map Prod.fst :=
  ⟨by decide,
   (distinct_insertion_count [((0 : Nat), 'a'), (1, 'b'), (2, 'c'), (3, 'd')]
     (by decide)).2.1⟩

/-- C10. Writes through the mutable accessors persist and are framed: on a mapping
satisfying the data-model invariant, both `operator[]` overloads on `k` succeed
(and the non-const `at(k)` does when `k` is present), and after assigning `w`
through the reference any of them returns, `at(k)` and `operator[]` on `k` both read
`w`, the key vector is the old one (with `k` appended when it was absent), every
other key reads through `at` what it read before, and every value stored at the
index of a key other than `k` is unchanged. -/
theorem write_through [DecidableEq K] [Inhabited V] (m : VectorMap K V)
    (hinv : Invariant m) (k : K) (w : V) :
    (∃ p m1, m.op_subscript k = .ok (p, m1) ∧ m.op_subscript_rval k = .ok (p, m1)) ∧
    (k ∈ m.keys_ → ∃ p, m.at_mut k = (.ok p, m)) ∧
    ∀ p m1, (m.op_subscript k = .ok (p, m1) ∨ m.op_subscript_rval k = .ok (p, m1) ∨
        m.at_mut k = (.ok p, m1)) →
      (m1.assign p w).at_const k = .ok w ∧
      (∃ q, (m1.assign p w).at_mut k = (.ok q, m1.assign p w) ∧
        deref (m1.assign p w) q = some w) ∧
      (∃ q, (m1.assign p w).op_subscript k = .ok (q, m1.assign p w) ∧
        deref (m1.assign p w) q = some w) ∧
      (∃ q, (m1.assign p w).op_subscript_rval k = .ok (q, m1.assign p w) ∧
        deref (m1.assign p w) q = some w) ∧
      (k ∈ m.keys_ → (m1.assign p w).keys_ = m.keys_) ∧
      (k ∉ m.keys_ → (m1.assign p w).keys_ = m.keys_ ++ [k]) ∧
      (∀ k2, k2 ≠ k → (m1.assign p w).at_const k2 = m.at_const k2) ∧
      (∀ (i : Nat) (k2 : K), m.keys_[i]? = some k2 → k2 ≠ k →
        (m1.assign p w).values_[i]? = m.values_[i]?) := by
  have hlen := hinv.1
  by_cases hk : k ∈ m.keys_
  · have hsub := op_subscript_of_mem m k hlen hk
    have hat := at_mut_of_mem m k hlen hk
    refine ⟨⟨_, _, hsub, by rw [op_subscript_rval_eq]; exact hsub⟩, fun _ => ⟨_, hat⟩, ?_⟩
    intro p m1 hcall
    have hpm : p = std_find m.keys_ k ∧ m1 = m := by
      rw [op_subscript_rval_eq, hsub, hat] at hcall
      rcases hcall with h | h | h
      · cases h; exact ⟨rfl, rfl⟩
      · cases h; exact ⟨rfl, rfl⟩
      · cases h; exact ⟨rfl, rfl⟩
    obtain ⟨rfl, rfl⟩ := hpm
    obtain ⟨h1, h2, h3, h4, h5, h6⟩ := assign_found m1 hlen k hk w
    refine ⟨h1, ⟨_, h2, h4⟩, ⟨_, h3, h4⟩, ⟨_, by rw [op_subscript_rval_eq]; exact h3, h4⟩,
      fun _ => rfl, fun hn => absurd hk hn, h5, ?_⟩
    intro i k2 hi hne
    apply h6
    intro e
    have g := std_find_getElem? m1.keys_ k hk
    rw [← e, hi] at g
    exact hne (Option.some.inj g)
  · have hsub := op_subscript_of_not_mem m k hk
    have hat := at_mut_of_not_mem m k hk
    refine ⟨⟨_, _, hsub, by rw [op_subscript_rval_eq]; exact hsub⟩, fun h => absurd h hk, ?_⟩
    intro p m1 hcall
    have hpm : p = m.values_.length ∧ m1 = ⟨m.keys_ ++ [k], m.values_ ++ [default]⟩ := by
      rw [op_subscript_rval_eq, hsub, hat] at hcall
      rcases hcall with h | h | h
      · cases h; exact ⟨rfl, rfl⟩
      · cases h; exact ⟨rfl, rfl⟩
      · cases h
    obtain ⟨rfl, rfl⟩ := hpm
    have hlen1 : (m.keys_ ++ [k]).length = (m.values_ ++ [(default : V)]).length := by
      simp [hlen]
    have hmem : k ∈ m.keys_ ++ [k] := by simp
    have hfind : std_find (m.keys_ ++ [k]) k = m.values_.length := by
      rw [std_find_append_self m.keys_ k hk, hlen]
    have hfound := assign_found ⟨m.keys_ ++ [k], m.values_ ++ [default]⟩ hlen1 k hmem w
    simp only [hfind] at hfound
    obtain ⟨h1, h2, h3, h4, h5, h6⟩ := hfound
    refine ⟨h1, ⟨_, h2, h4⟩, ⟨_, h3, h4⟩, ⟨_, by rw [op_subscript_rval_eq]; exact h3, h4⟩,
      fun h => absurd h hk, fun _ => rfl, ?_, ?_⟩
    · intro k2 hne
      rw [h5 k2 hne]
      exact at_const_append_of_ne m hlen k k2 default hne
    · intro i k2 hi _
      have hilt : i < m.keys_.length := by
        by_contra hge
        rw [List.getElem?_eq_none (by omega)] at hi
        cases hi
      rw [h6 i (by omega)]
      exact List.getElem?_append_left (by omega)

/-- Witness of C10: `map[1] = z` on the mapping holding keys 0 and 1. -/
theorem write_through_witness :
    Invariant (⟨[0, 1], ['a', 'b']⟩ : VectorMap Nat Char) ∧
    ∃ p m1, (⟨[0, 1], ['a', 'b']⟩ : VectorMap Nat Char).op_subscript 1 = .ok (p, m1) ∧
      (⟨[0, 1], ['a', 'b']⟩ : VectorMap Nat Char).op_subscript_rval 1 = .ok (p, m1) :=
  ⟨⟨rfl, by decide⟩,
   (write_through (⟨[0, 1], ['a', 'b']⟩ : VectorMap Nat Char) ⟨rfl, by decide⟩ 1 'z').1⟩

end VectorMap

namespace VectorMapBool

variable {V : Type}

/-! ## Facts about the specialization for `bool` -/

theorem bool_insert_rval_eq [DecidableEq V] [Inhabited V] (m : VectorMapBool V) (key : Bool)
    (val : V) : m.insert_rval key val = m.insert key val := rfl

theorem bool_insert_of_ne [DecidableEq V] [Inhabited V] (m : VectorMapBool V) (key : Bool)
    (val : V) (h : selected m key ≠ default) : m.insert key val = ((key, false), m) := by
  cases key <;> simp_all [insert, selected]

theorem bool_insert_of_eq [DecidableEq V] [Inhabited V] (m : VectorMapBool V) (key : Bool)
    (val : V) (h : selected m key = default) :
    m.insert key val = ((key, true), m.assign (m.op_subscript key).1 val) := by
  cases key <;> simp_all [insert, selected, assign, op_subscript]

theorem selected_assign_same (m : VectorMapBool V) (key : Bool) (w : V) :
    selected (m.assign (m.op_subscript key).1 w) key = w := by
  cases key <;> simp [selected, assign, op_subscript]

theorem selected_assign_other (m : VectorMapBool V) (key : Bool) (w : V) :
    selected (m.assign (m.op_subscript key).1 w) (!key) = selected m (!key) := by
  cases key <;> simp [selected, assign, op_subscript]

theorem bool_at_const_of_eq [DecidableEq V] [Inhabited V] (m : VectorMapBool V) (key : Bool)
    (h : selected m key = default) : m.at_const key = .error .out_of_range := by
  cases key <;> simp_all [at_const, selected]

theorem bool_at_const_of_ne [DecidableEq V] [Inhabited V] (m : VectorMapBool V) (key : Bool)
    (h : selected m key ≠ default) : m.at_const key = .ok (selected m key) := by
  cases key <;> simp_all [at_const, selected]

theorem bool_at_mut_of_eq [DecidableEq V] [Inhabited V] (m : VectorMapBool V) (key : Bool)
    (h : selected m key = default) : m.at_mut key = (.error .out_of_range, m) := by
  cases key <;> simp_all [at_mut, selected]

theorem bool_at_mut_of_ne [DecidableEq V] [Inhabited V] (m : VectorMapBool V) (key : Bool)
    (h : selected m key ≠ default) : m.at_mut key = (.ok (m.op_subscript key).1, m) := by
  cases key <;> simp_all [at_mut, selected, op_subscript]

theorem deref_op_subscript (m : VectorMapBool V) (key : Bool) :
    deref m (m.op_subscript key).1 = selected m key := by
  cases key <;> simp [deref, selected, op_subscript]

/-- A run of inserts keeps a slot that is not `ValueType {}`, and answers `false`
to every insert for its key. -/
theorem bool_insertAll_keeps [DecidableEq V] [Inhabited V] (kvs : List (Bool × V))
    (m : VectorMapBool V) (b : Bool) (h : selected m b ≠ default) :
    selected (insertAll m kvs).2 b = selected m b ∧
    (insertAll m kvs).1.map Prod.fst = kvs.map Prod.fst ∧
    ∀ r ∈ (insertAll m kvs).1, r.1 = b → r.2 = false := by
  induction kvs generalizing m with
  | nil => simp [insertAll]
  | cons kv rest ih =>
    have hstep : selected (m.insert kv.1 kv.2).2 b = selected m b ∧
        ((m.insert kv.1 kv.2).1.1 = kv.1) ∧
        ((m.insert kv.1 kv.2).1.1 = b → (m.insert kv.1 kv.2).1.2 = false) := by
      by_cases hb : kv.1 = b
      · rw [hb, bool_insert_of_ne m b kv.2 h]
        exact ⟨rfl, rfl, fun _ => rfl⟩
      · by_cases hd : selected m kv.1 = default
        · rw [bool_insert_of_eq m kv.1 kv.2 hd]
          refine ⟨?_, rfl, fun e => absurd e hb⟩
          have hnb : b = !kv.1 := by
            cases b <;> cases hk : kv.1 <;> simp_all
          rw [hnb]
          exact selected_assign_other m kv.1 kv.2
        · rw [bool_insert_of_ne m kv.1 kv.2 hd]
          exact ⟨rfl, rfl, fun e => absurd e hb⟩
    obtain ⟨h1, h2, h3⟩ := hstep
    obtain ⟨i1, i2, i3⟩ := ih (m.insert kv.1 kv.2).2 (by rw [h1]; exact h)
    refine ⟨?_, ?_, ?_⟩
    · simp only [insertAll]
      rw [i1, h1]
    · simp only [insertAll, List.map_cons, i2, h2]
    · intro r hr hrb
      simp only [insertAll, List.mem_cons] at hr
      rcases hr with hr | hr
      · rw [hr] at hrb ⊢
        exact h3 hrb
      · exact i3 r hr hrb

/-! ## The claims about the specialization for `bool` -/

/-- C11. Boolean specialization, `insert`: in every state, for both overloads,
`insert(b, v)` returns `(b, false)` and leaves both slots unchanged exactly when the
slot selected by `b` is not `ValueType {}`; otherwise it returns `(b, true)`, sets
the slot selected by `b` to `v` and leaves the other slot unchanged. Consequently,
once an `insert(b, v)` with `v` not `ValueType {}` has returned `true`, through any
further sequence of inserts every insert for `b` returns `false` and the slot of
`b` keeps `v`. -/
theorem bool_insert_spec [DecidableEq V] [Inhabited V] (m : VectorMapBool V) (b : Bool)
    (v : V) :
    (((m.insert b v).1 = (b, false) ∧ (m.insert b v).2 = m) ↔ selected m b ≠ default) ∧
    (selected m b = default →
      (m.insert b v).1 = (b, true) ∧ selected (m.insert b v).2 b = v ∧
      selected (m.insert b v).2 (!b) = selected m (!b)) ∧
    (((m.insert_rval b v).1 = (b, false) ∧ (m.insert_rval b v).2 = m)
      ↔ selected m b ≠ default) ∧
    (selected m b = default →
      (m.insert_rval b v).1 = (b, true) ∧ selected (m.insert_rval b v).2 b = v ∧
      selected (m.insert_rval b v).2 (!b) = selected m (!b)) ∧
    (v ≠ default → (m.insert b v).1.2 = true → ∀ kvs : List (Bool × V),
      selected (insertAll (m.insert b v).2 kvs).2 b = v ∧
      (insertAll (m.insert b v).2 kvs).1.map Prod.fst = kvs.map Prod.fst ∧
      ∀ r ∈ (insertAll (m.insert b v).2 kvs).1, r.1 = b → r.2 = false) := by
  have hiff : ((m.insert b v).1 = (b, false) ∧ (m.insert b v).2 = m)
      ↔ selected m b ≠ default := by
    constructor
    · intro h hd
      rw [bool_insert_of_eq m b v hd] at h
      have := congrArg Prod.snd h.1
      cases this
    · intro h
      rw [bool_insert_of_ne m b v h]
      exact ⟨rfl, rfl⟩
  have hset : selected m b = default →
      (m.insert b v).1 = (b, true) ∧ selected (m.insert b v).2 b = v ∧
      selected (m.insert b v).2 (!b) = selected m (!b) := by
    intro hd
    rw [bool_insert_of_eq m b v hd]
    exact ⟨rfl, selected_assign_same m b v, selected_assign_other m b v⟩
  refine ⟨hiff, hset, ?_, ?_, ?_⟩
  · rw [bool_insert_rval_eq]; exact hiff
  · rw [bool_insert_rval_eq]; exact hset
  · intro hv hins kvs
    have hd : selected m b = default := by
      by_contra hne
      rw [bool_insert_of_ne m b v hne] at hins
      cases hins
    have hsel : selected (m.insert b v).2 b = v := (hset hd).2.1
    have hkeep := bool_insertAll_keeps kvs (m.insert b v).2 b (by rw [hsel]; exact hv)
    rw [hsel] at hkeep
    exact hkeep

/-- Boolean specialization, `at` in a given state: both overloads of `at(b)` throw
`std::out_of_range` exactly when the slot selected by `b` equals `ValueType {}`;
otherwise they give that slot (the const one its value, the other a reference
reading it); the non-const overload leaves the state unchanged in both cases. So
`at(true)` and `at(false)` both throw on the value-initialised object. -/
theorem bool_at_spec [DecidableEq V] [Inhabited V] (m : VectorMapBool V) (b : Bool) :
    (m.at_const b = .error .out_of_range ↔ selected m b = default) ∧
    (selected m b ≠ default → m.at_const b = .ok (selected m b)) ∧
    ((m.at_mut b).1 = .error .out_of_range ↔ selected m b = default) ∧
    (selected m b ≠ default →
      ∃ ref, (m.at_mut b).1 = .ok ref ∧ deref (m.at_mut b).2 ref = selected m b) ∧
    (m.at_mut b).2 = m ∧
    (value_initialised : VectorMapBool V).at_const true = .error .out_of_range ∧
    (value_initialised : VectorMapBool V).at_const false = .error .out_of_range ∧
    ((value_initialised : VectorMapBool V).at_mut true).1 = .error .out_of_range ∧
    ((value_initialised : VectorMapBool V).at_mut false).1 = .error .out_of_range := by
  refine ⟨?_, bool_at_const_of_ne m b, ?_, ?_, ?_, ?_, ?_, ?_, ?_⟩
  · constructor
    · intro h
      by_contra hne
      rw [bool_at_const_of_ne m b hne] at h
      cases h
    · exact bool_at_const_of_eq m b
  · constructor
    · intro h
      by_contra hne
      rw [bool_at_mut_of_ne m b hne] at h
      cases h
    · intro h
      rw [bool_at_mut_of_eq m b h]
  · intro hne
    rw [bool_at_mut_of_ne m b hne]
    exact ⟨_, rfl, deref_op_subscript m b⟩
  · by_cases h : selected m b = default
    · rw [bool_at_mut_of_eq m b h]
    · rw [bool_at_mut_of_ne m b h]
  · exact bool_at_const_of_eq value_initialised true rfl
  · exact bool_at_const_of_eq value_initialised false rfl
  · rw [bool_at_mut_of_eq value_initialised true rfl]
  · rw [bool_at_mut_of_eq value_initialised false rfl]

/-- Boolean specialization, on the value-initialised object: for every key `b`,
`insert(b, ValueType {})` (either overload) leaves the state equal to the
value-initialised one, and a following `at(b)` throws `std::out_of_range`, as
`at(b)` does on the value-initialised object into which nothing was inserted. -/
theorem bool_default_insert_is_absence [DecidableEq V] [Inhabited V] (b : Bool) :
    ((value_initialised : VectorMapBool V).insert b default).2 = value_initialised ∧
    ((value_initialised : VectorMapBool V).insert_rval b default).2 = value_initialised ∧
    ((value_initialised : VectorMapBool V).insert b default).2.at_const b = .error .out_of_range ∧
    (value_initialised : VectorMapBool V).at_const b = .error .out_of_range ∧
    (((value_initialised : VectorMapBool V).insert b default).2.at_mut b).1 = .error .out_of_range ∧
    ((value_initialised : VectorMapBool V).at_mut b).1 = .error .out_of_range := by
  have hsel : selected (value_initialised : VectorMapBool V) b = default := by
    cases b <;> rfl
  have hstate : ((value_initialised : VectorMapBool V).insert b default).2 = value_initialised := by
    rw [bool_insert_of_eq value_initialised b default hsel]
    cases b <;> rfl
  refine ⟨hstate, ?_, ?_, bool_at_const_of_eq value_initialised b hsel, ?_, ?_⟩
  · rw [bool_insert_rval_eq]; exact hstate
  · rw [hstate]; exact bool_at_const_of_eq value_initialised b hsel
  · rw [hstate, bool_at_mut_of_eq value_initialised b hsel]
  · rw [bool_at_mut_of_eq value_initialised b hsel]

/-- C14. Boolean specialization, `operator[]`: in every state `operator[](b)` returns
(it has no failing path) a reference that denotes `trueVal_` when `b` is true and
`falseVal_` when `b` is false, whatever the slot holds; the call leaves the state
unchanged, and assigning `w` through the reference sets exactly that slot to `w`
and leaves the other slot unchanged. -/
theorem bool_op_subscript_spec (m : VectorMapBool V) (b : Bool) (w : V) :
    (b = true → (m.op_subscript b).1 = Slot.trueVal ∧
      deref m (m.op_subscript b).1 = m.trueVal_) ∧
    (b = false → (m.op_subscript b).1 = Slot.falseVal ∧
      deref m (m.op_subscript b).1 = m.falseVal_) ∧
    (m.op_subscript b).2 = m ∧
    (b = true → (m.op_subscript b).2.assign (m.op_subscript b).1 w = ⟨w, m.falseVal_⟩) ∧
    (b = false → (m.op_subscript b).2.assign (m.op_subscript b).1 w = ⟨m.trueVal_, w⟩) ∧
    selected ((m.op_subscript b).2.assign (m.op_subscript b).1 w) b = w ∧
    selected ((m.op_subscript b).2.assign (m.op_subscript b).1 w) (!b)
      = selected m (!b) := by
  refine ⟨?_, ?_, rfl, ?_, ?_, selected_assign_same m b w, selected_assign_other m b w⟩
  · rintro rfl; exact ⟨rfl, rfl⟩
  · rintro rfl; exact ⟨rfl, rfl⟩
  · rintro rfl; rfl
  · rintro rfl; rfl

/-- C20. In the boolean specialization a present key can become absent again and be
inserted a second time: in every state, for a key `b` and a value `v` that is not
`ValueType {}`, after `ValueType {}` is assigned to the slot of `b` through
`operator[]`, `at(b)` throws `std::out_of_range`, and a following `insert(b, v)`
returns `(b, true)` and stores `v` (which `at(b)` then returns); and from the
value-initialised object `insert(b, ValueType {})` and then `insert(b, v)` both
return `(b, true)`. -/
theorem bool_key_absent_again [DecidableEq V] [Inhabited V] (m : VectorMapBool V) (b : Bool)
    (v : V) (hv : v ≠ default) :
    ((m.op_subscript b).2.assign (m.op_subscript b).1 default).at_const b
      = .error .out_of_range ∧
    (((m.op_subscript b).2.assign (m.op_subscript b).1 default).at_mut b).1
      = .error .out_of_range ∧
    (((m.op_subscript b).2.assign (m.op_subscript b).1 default).insert b v).1 = (b, true) ∧
    selected (((m.op_subscript b).2.assign (m.op_subscript b).1 default).insert b v).2 b
      = v ∧
    (((m.op_subscript b).2.assign (m.op_subscript b).1 default).insert b v).2.at_const b
      = .ok v ∧
    ((value_initialised : VectorMapBool V).insert b default).1 = (b, true) ∧
    (((value_initialised : VectorMapBool V).insert b default).2.insert b v).1 = (b, true) := by
  have hstate : (m.op_subscript b).2 = m := rfl
  rw [hstate]
  have hd : selected (m.assign (m.op_subscript b).1 default) b = default :=
    selected_assign_same m b default
  have hins := bool_insert_of_eq (m.assign (m.op_subscript b).1 default) b v hd
  have hsel : selected ((m.assign (m.op_subscript b).1 default).insert b v).2 b = v := by
    rw [hins]
    exact selected_assign_same _ b v
  have hfresh : selected (value_initialised : VectorMapBool V) b = default := by
    cases b <;> rfl
  have hfresh2 : selected ((value_initialised : VectorMapBool V).insert b default).2 b = default := by
    rw [bool_insert_of_eq value_initialised b default hfresh]
    exact selected_assign_same _ b default
  refine ⟨bool_at_const_of_eq _ b hd, ?_, ?_, hsel, ?_, ?_, ?_⟩
  · rw [bool_at_mut_of_eq _ b hd]
  · rw [hins]
  · rw [bool_at_const_of_ne _ b (by rw [hsel]; exact hv), hsel]
  · rw [bool_insert_of_eq value_initialised b default hfresh]
  · rw [bool_insert_of_eq _ b v hfresh2]

/-- Witness of C20: the slot of `true` holds 7, is reset through `operator[]`, and
9 is inserted. -/
theorem bool_key_absent_again_witness :
    (9 : Nat) ≠ default ∧
    ((((⟨7, 0⟩ : VectorMapBool Nat).op_subscript true).2.assign
      ((⟨7, 0⟩ : VectorMapBool Nat).op_subscript true).1 default).insert true 9).1
      = (true, true) :=
  ⟨by decide, (bool_key_absent_again (⟨7, 0⟩ : VectorMapBool Nat) true 9 (by decide)).2.2.1⟩

end VectorMapBool

namespace VectorMap

variable {K V : Type}

/-! ## Further facts about the primary template -/

theorem insert_rval_of_not_mem [DecidableEq K] (movedFrom : K → K) (m : VectorMap K V)
    (key : K) (val : V) (h : key ∉ m.keys_) :
    m.insert_rval movedFrom key val
      = ((movedFrom key, true), ⟨m.keys_ ++ [key], m.values_ ++ [val]⟩) := by
  simp [insert_rval, (std_find_eq_length_iff m.keys_ key).mpr h]

theorem insert_rval_of_mem [DecidableEq K] (movedFrom : K → K) (m : VectorMap K V)
    (key : K) (val : V) (h : key ∈ m.keys_) :
    m.insert_rval movedFrom key val = ((key, false), m) := by
  have hne : std_find m.keys_ key ≠ m.keys_.length :=
    fun e => (std_find_eq_length_iff m.keys_ key).mp e h
  simp [insert_rval, hne]

theorem at_const_append_self [DecidableEq K] (m : VectorMap K V)
    (hlen : m.keys_.length = m.values_.length) (k : K) (v : V) (hk : k ∉ m.keys_) :
    at_const ⟨m.keys_ ++ [k], m.values_ ++ [v]⟩ k = .ok v := by
  have hlen1 : (m.keys_ ++ [k]).length = (m.values_ ++ [v]).length := by simp [hlen]
  obtain ⟨u, hu1, hu2⟩ :=
    at_const_of_mem ⟨m.keys_ ++ [k], m.values_ ++ [v]⟩ k hlen1 (by simp)
  have hfind : std_find (m.keys_ ++ [k]) k = m.values_.length := by
    rw [std_find_append_self m.keys_ k hk, hlen]
  simp only [hfind] at hu1
  have hread : (m.values_ ++ [v])[m.values_.length]? = some v := by simp
  rw [hread] at hu1
  cases hu1
  exact hu2

/-! ## The remaining claims about the primary template -/

/-- C15, the code where the claim fails. With `std::string` keys, whose moved-from
state is the empty string in the common standard libraries (the standard leaves
it unspecified), `insert(KeyType&&, ValueType&&)` of a new key returns the
moved-from key where `insert(const KeyType&, const ValueType&)` returns the key
itself; the two leave the same `keys_` and `values_`. -/
theorem insert_rval_returns_moved_from_key :
    (insert_rval (fun _ => "") (empty : VectorMap String String) "Tim" "Mayers").1
      = ("", true) ∧
    (insert (empty : VectorMap String String) "Tim" "Mayers").1 = ("Tim", true) ∧
    (insert_rval (fun _ => "") (empty : VectorMap String String) "Tim" "Mayers").2
      = (insert (empty : VectorMap String String) "Tim" "Mayers").2 := by
  refine ⟨?_, ?_, ?_⟩
  · rw [insert_rval_of_not_mem _ _ _ _ (by simp [empty])]
  · rw [insert_of_not_mem _ _ _ (by simp [empty])]
  · rw [insert_rval_snd]

/-- C16. The scenario of `main`: from the empty `VectorMap<unsigned, char>` the loop
inserts (0, a), (1, b), (2, c), (3, d), every insert returning `true`, after which
`keys()` is 0, 1, 2, 3 and `values()` is a, b, c, d; then `insert(3, d)` (either
overload) returns `(3, false)` and changes nothing; `at(1)` is b, `at(3)` is d and
`at(7)` throws `std::out_of_range`; `operator[]` on key 5 returns a reference
reading the null character `char {}` and leaves `keys()` as 0, 1, 2, 3, 5 with
the null character as the fifth value, and the three `at` calls give the same on
that mapping (the order of `main`). -/
theorem main_scenario :
    main_pairs = [(0, ⟨'a'⟩), (1, ⟨'b'⟩), (2, ⟨'c'⟩), (3, ⟨'d'⟩)] ∧
    (insertAll empty main_pairs).1 = [(0, true), (1, true), (2, true), (3, true)] ∧
    keys main_map = [0, 1, 2, 3] ∧
    values main_map = [⟨'a'⟩, ⟨'b'⟩, ⟨'c'⟩, ⟨'d'⟩] ∧
    main_map.insert_rval id 3 ⟨'d'⟩ = ((3, false), main_map) ∧
    main_map.insert 3 ⟨'d'⟩ = ((3, false), main_map) ∧
    main_map.at_const 1 = .ok ⟨'b'⟩ ∧
    main_map.at_const 3 = .ok ⟨'d'⟩ ∧
    main_map.at_const 7 = .error .out_of_range ∧
    (default : CChar) = ⟨Char.ofNat 0⟩ ∧
    ∃ p m5, main_map.op_subscript_rval 5 = .ok (p, m5) ∧
      main_map.op_subscript 5 = .ok (p, m5) ∧
      deref m5 p = some default ∧
      keys m5 = [0, 1, 2, 3, 5] ∧
      values m5 = [⟨'a'⟩, ⟨'b'⟩, ⟨'c'⟩, ⟨'d'⟩, default] ∧
      m5.at_const 1 = .ok ⟨'b'⟩ ∧
      m5.at_const 3 = .ok ⟨'d'⟩ ∧
      m5.at_const 7 = .error .out_of_range := by
  refine ⟨by decide, by decide, by decide, by decide, by decide, by decide, rfl, rfl, rfl, rfl,
    4, ⟨[0, 1, 2, 3, 5], [⟨'a'⟩, ⟨'b'⟩, ⟨'c'⟩, ⟨'d'⟩, default]⟩,
    rfl, rfl, rfl, rfl, rfl, rfl, rfl, rfl⟩

/-- C18. Lookup indexing is in bounds: on a mapping whose two vectors have the same
length, for a present key the position the linear scan computes is the first
index whose key equals `k` and is less than `values_.size()`, and it is the slot
`operator[]` and `at` refer to; for every key both overloads of `operator[]` succeed
with a reference inside `values_`, and neither `at` overload indexes outside
`values_` (`insert` never indexes `values_` at all). -/
theorem lookup_in_bounds [DecidableEq K] [Inhabited V] (m : VectorMap K V)
    (hlen : m.keys_.length = m.values_.length) (k : K) :
    (k ∈ m.keys_ →
      std_find m.keys_ k < m.values_.length ∧
      m.keys_[std_find m.keys_ k]? = some k ∧
      (∀ j, j < std_find m.keys_ k → m.keys_[j]? ≠ some k) ∧
      m.op_subscript k = .ok (std_find m.keys_ k, m) ∧
      m.op_subscript_rval k = .ok (std_find m.keys_ k, m) ∧
      m.at_mut k = (.ok (std_find m.keys_ k), m) ∧
      ∃ v, m.values_[std_find m.keys_ k]? = some v ∧ m.at_const k = .ok v) ∧
    (∃ p m1, m.op_subscript k = .ok (p, m1) ∧ p < m1.values_.length) ∧
    (∃ p m1, m.op_subscript_rval k = .ok (p, m1) ∧ p < m1.values_.length) ∧
    m.at_const k ≠ .error .undefined_behaviour ∧
    (m.at_mut k).1 ≠ .error .undefined_behaviour := by
  have hpos : k ∈ m.keys_ → std_find m.keys_ k < m.values_.length := by
    intro hk
    have := (std_find_lt_iff m.keys_ k).mpr hk
    omega
  have hsub : ∃ p m1, m.op_subscript k = .ok (p, m1) ∧ p < m1.values_.length := by
    rcases op_subscript_cases m k hlen with ⟨hk, h⟩ | ⟨_, h⟩
    · exact ⟨_, _, h, hpos hk⟩
    · exact ⟨_, _, h, by simp⟩
  refine ⟨?_, hsub, ?_, ?_, ?_⟩
  · intro hk
    refine ⟨hpos hk, std_find_getElem? m.keys_ k hk,
      fun j hj => std_find_first m.keys_ k j hj, op_subscript_of_mem m k hlen hk, ?_,
      at_mut_of_mem m k hlen hk, at_const_of_mem m k hlen hk⟩
    rw [op_subscript_rval_eq]
    exact op_subscript_of_mem m k hlen hk
  · rw [op_subscript_rval_eq]
    exact hsub
  · by_cases hk : k ∈ m.keys_
    · obtain ⟨v, _, hv⟩ := at_const_of_mem m k hlen hk
      rw [hv]
      exact fun e => by cases e
    · rw [at_const_of_not_mem m k hk]
      exact fun e => by cases e
  · by_cases hk : k ∈ m.keys_
    · rw [at_mut_of_mem m k hlen hk]
      exact fun e => by cases e
    · rw [at_mut_of_not_mem m k hk]
      exact fun e => by cases e

/-- Witness of C18: key 1 occurs twice; the scan stops at index 1. -/
theorem lookup_in_bounds_witness :
    (⟨[0, 1, 1], ['a', 'b', 'c']⟩ : VectorMap Nat Char).keys_.length
      = (⟨[0, 1, 1], ['a', 'b', 'c']⟩ : VectorMap Nat Char).values_.length ∧
    std_find (⟨[0, 1, 1], ['a', 'b', 'c']⟩ : VectorMap Nat Char).keys_ 1 = 1 ∧
    ∃ p m1, (⟨[0, 1, 1], ['a', 'b', 'c']⟩ : VectorMap Nat Char).op_subscript 1 = .ok (p, m1) ∧
      p < m1.values_.length :=
  ⟨rfl, rfl, (lookup_in_bounds (⟨[0, 1, 1], ['a', 'b', 'c']⟩ : VectorMap Nat Char) rfl 1).2.1⟩

end VectorMap

namespace CppType

/-- C17. Integer-key query: for every key type `K`, `isIntKey()` returns `true` if and
only if `K` is `int`; so it is `false` for `unsigned`, `std::string`, `double` and
for the specialization for `bool`; the static member `is_int_key` and the variable
template `is_int_key_v<K>` have the value of `isIntKey()`; and the result is the
same whatever object the call is made on. -/
theorem isIntKey_spec (K : CppType) {M : Type} (m1 m2 : M) :
    (isIntKey K m1 = true ↔ K = CppType.int) ∧
    is_int_key K = isIntKey K m1 ∧
    is_int_key_v K = isIntKey K m1 ∧
    isIntKey K m1 = isIntKey K m2 ∧
    isIntKey CppType.unsigned m1 = false ∧
    isIntKey CppType.string m1 = false ∧
    isIntKey CppType.double m1 = false ∧
    isIntKey CppType.bool m1 = false ∧
    isIntKey CppType.int m1 = true := by
  refine ⟨?_, ?_, ?_, ?_, rfl, rfl, rfl, rfl, rfl⟩
  · cases K <;> simp [isIntKey]
  · cases K <;> rfl
  · cases K <;> rfl
  · cases K <;> rfl

end CppType

namespace VectorMapBool

variable {V : Type}

/-! ## The specialization for `bool` against the primary template -/

theorem bool_at_const_eq [DecidableEq V] [Inhabited V] (m : VectorMapBool V) (b : Bool) :
    m.at_const b
      = if selected m b = default then .error .out_of_range else .ok (selected m b) := by
  by_cases h : selected m b = default
  · rw [bool_at_const_of_eq m b h, if_pos h]
  · rw [bool_at_const_of_ne m b h, if_neg h]

/-- One simulation step and its iteration: while the two objects answer `at` alike
and the generic one has vectors of one length, a run of inserts of values other
than `ValueType {}` returns the same results in both and keeps them alike. -/
theorem insertAll_simulation [DecidableEq V] [Inhabited V] (kvs : List (Bool × V))
    (mb : VectorMapBool V) (mg : VectorMap Bool V)
    (hlen : mg.keys_.length = mg.values_.length)
    (hat : ∀ b, mb.at_const b = mg.at_const b)
    (hv : ∀ kv ∈ kvs, kv.2 ≠ default) :
    (insertAll mb kvs).1 = (VectorMap.insertAll mg kvs).1 ∧
    ∀ b, (insertAll mb kvs).2.at_const b = (VectorMap.insertAll mg kvs).2.at_const b := by
  induction kvs generalizing mb mg with
  | nil => exact ⟨rfl, hat⟩
  | cons kv rest ih =>
    have hval : kv.2 ≠ default := hv kv (by simp)
    have hrest : ∀ x ∈ rest, x.2 ≠ default := fun x hx => hv x (by simp [hx])
    by_cases hd : selected mb kv.1 = default
    · have hnot : kv.1 ∉ mg.keys_ := by
        intro hmem
        obtain ⟨u, _, hu⟩ := VectorMap.at_const_of_mem mg kv.1 hlen hmem
        have h1 := hat kv.1
        rw [bool_at_const_of_eq mb kv.1 hd, hu] at h1
        cases h1
      have hb := bool_insert_of_eq mb kv.1 kv.2 hd
      have hg := VectorMap.insert_of_not_mem mg kv.1 kv.2 hnot
      have hlen1 : (mg.keys_ ++ [kv.1]).length = (mg.values_ ++ [kv.2]).length := by
        simp [hlen]
      have hat1 : ∀ b, (mb.assign (mb.op_subscript kv.1).1 kv.2).at_const b
          = VectorMap.at_const ⟨mg.keys_ ++ [kv.1], mg.values_ ++ [kv.2]⟩ b := by
        intro b
        by_cases hbk : b = kv.1
        · rw [hbk, VectorMap.at_const_append_self mg hlen kv.1 kv.2 hnot, bool_at_const_eq,
            selected_assign_same, if_neg hval]
        · have hnb : b = !kv.1 := by
            cases b <;> cases hk : kv.1 <;> simp_all
          rw [VectorMap.at_const_append_of_ne mg hlen kv.1 b kv.2 hbk, ← hat b,
            bool_at_const_eq, bool_at_const_eq mb b, hnb, selected_assign_other]
      obtain ⟨i1, i2⟩ := ih _ _ hlen1 hat1 hrest
      simp only [insertAll, VectorMap.insertAll, hb, hg]
      exact ⟨by rw [i1], i2⟩
    · have hmem : kv.1 ∈ mg.keys_ := by
        by_contra hnot
        have h1 := hat kv.1
        rw [bool_at_const_of_ne mb kv.1 hd, VectorMap.at_const_of_not_mem mg kv.1 hnot] at h1
        cases h1
      have hb := bool_insert_of_ne mb kv.1 kv.2 hd
      have hg := VectorMap.insert_of_mem mg kv.1 kv.2 hmem
      obtain ⟨i1, i2⟩ := ih mb mg hlen hat hrest
      simp only [insertAll, VectorMap.insertAll, hb, hg]
      exact ⟨by rw [i1], i2⟩

/-- The boolean specialization started value-initialised agrees with the primary
template on values other than `ValueType {}`: for every finite sequence of
`insert(b, v)` calls in which no `v` is `ValueType {}`, run on the value-initialised
specialization and on an empty primary-template mapping with `bool` keys, the two
return the same `(key, inserted)` results step by step, and afterwards for each `b`
the two `at(b)` agree: both throw `std::out_of_range` or both return the same
value. -/
theorem bool_agrees_with_generic [DecidableEq V] [Inhabited V] (kvs : List (Bool × V))
    (hv : ∀ kv ∈ kvs, kv.2 ≠ default) :
    (insertAll value_initialised kvs).1 = (VectorMap.insertAll VectorMap.empty kvs).1 ∧
    ∀ b, (insertAll value_initialised kvs).2.at_const b
        = (VectorMap.insertAll VectorMap.empty kvs).2.at_const b ∧
      ((insertAll value_initialised kvs).2.at_const b = .error .out_of_range ∨
        ∃ v, (insertAll value_initialised kvs).2.at_const b = .ok v) := by
  have hat : ∀ b, (value_initialised : VectorMapBool V).at_const b
      = (VectorMap.empty : VectorMap Bool V).at_const b := by
    intro b
    have hsel : selected (value_initialised : VectorMapBool V) b = default := by
      cases b <;> rfl
    rw [bool_at_const_of_eq value_initialised b hsel,
      VectorMap.at_const_of_not_mem VectorMap.empty b (by simp [VectorMap.empty])]
  obtain ⟨h1, h2⟩ := insertAll_simulation kvs value_initialised VectorMap.empty rfl hat hv
  refine ⟨h1, fun b => ⟨h2 b, ?_⟩⟩
  rw [bool_at_const_eq]
  by_cases h : selected (insertAll value_initialised kvs).2 b = default
  · left; rw [if_pos h]
  · right; exact ⟨_, by rw [if_neg h]⟩

/-- The agreement above at the four inserts of `checkInsertForVectorMapOfBool`, with
numbers for the strings. -/
theorem bool_agrees_with_generic_witness :
    (∀ kv ∈ [(true, (1 : Nat)), (false, 2), (true, 3), (false, 4)], kv.2 ≠ default) ∧
    (insertAll value_initialised [(true, (1 : Nat)), (false, 2), (true, 3), (false, 4)]).1
      = (VectorMap.insertAll VectorMap.empty
          [(true, (1 : Nat)), (false, 2), (true, 3), (false, 4)]).1 ∧
    (insertAll value_initialised [(true, (1 : Nat)), (false, 2), (true, 3), (false, 4)]).1
      = [(true, true), (false, true), (true, false), (false, false)] :=
  ⟨by decide,
   (bool_agrees_with_generic [(true, (1 : Nat)), (false, 2), (true, 3), (false, 4)]
     (by decide)).1,
   by decide⟩

/-! ## The specialization for `bool` as a newly created object -/

/-- For a class-type `ValueType` the default-initialised object is the
value-initialised one. -/
theorem default_initialised_class [Inhabited V] (stored_true stored_false : V) :
    default_initialised false stored_true stored_false = value_initialised := rfl

/-- For a scalar `ValueType` the default-initialised object holds what the storage
held. -/
theorem default_initialised_scalar [Inhabited V] (stored_true stored_false : V) :
    default_initialised true stored_true stored_false = ⟨stored_true, stored_false⟩ := rfl

/-- In every state `insert(b, ValueType {})` gives the state back as it was. -/
theorem bool_insert_default_state [DecidableEq V] [Inhabited V] (m : VectorMapBool V)
    (b : Bool) : (m.insert b default).2 = m := by
  by_cases h : selected m b = default
  · rw [bool_insert_of_eq m b default h]
    cases b
    · simp only [selected] at h
      simp [assign, op_subscript, ← h]
    · simp only [selected] at h
      simp [assign, op_subscript, ← h]
  · rw [bool_insert_of_ne m b default h]

/-- C12, the code where the claim fails. The object `VectorMap<bool, char> trueToChar;`
of `checkAtForVectorMapOfBool` is default-initialised; when the storage of its two
members held the characters x and y, `at(true)` returns x and `at(false)` returns y
through both overloads, where the claim has both calls throw `std::out_of_range`
on a newly created mapping (as they do on the value-initialised object). -/
theorem bool_at_on_default_initialised :
    (default_initialised true (⟨'x'⟩ : CChar) ⟨'y'⟩).at_const true = .ok ⟨'x'⟩ ∧
    (default_initialised true (⟨'x'⟩ : CChar) ⟨'y'⟩).at_const false = .ok ⟨'y'⟩ ∧
    (default_initialised true (⟨'x'⟩ : CChar) ⟨'y'⟩).at_mut true
      = (.ok Slot.trueVal, default_initialised true ⟨'x'⟩ ⟨'y'⟩) ∧
    (default_initialised true (⟨'x'⟩ : CChar) ⟨'y'⟩).at_mut false
      = (.ok Slot.falseVal, default_initialised true ⟨'x'⟩ ⟨'y'⟩) ∧
    (value_initialised : VectorMapBool CChar).at_const true = .error .out_of_range ∧
    (value_initialised : VectorMapBool CChar).at_const false = .error .out_of_range := by
  refine ⟨?_, ?_, ?_, ?_, ?_, ?_⟩
  · exact bool_at_const_of_ne _ true (by decide)
  · exact bool_at_const_of_ne _ false (by decide)
  · exact bool_at_mut_of_ne _ true (by decide)
  · exact bool_at_mut_of_ne _ false (by decide)
  · exact bool_at_const_of_eq _ true rfl
  · exact bool_at_const_of_eq _ false rfl

/-- C13, the code where the claim fails. On the default-initialised
`VectorMap<bool, char>` whose storage held the characters x and y, `insert(true,
char {})` (either overload) returns `(true, false)` and leaves the state as it was,
and the following `at(true)` returns x, as it does on the object into which
nothing was inserted, where the claim has it throw `std::out_of_range`. -/
theorem bool_default_insert_on_default_initialised :
    (default_initialised true (⟨'x'⟩ : CChar) ⟨'y'⟩).insert true default
      = ((true, false), default_initialised true ⟨'x'⟩ ⟨'y'⟩) ∧
    (default_initialised true (⟨'x'⟩ : CChar) ⟨'y'⟩).insert_rval true default
      = ((true, false), default_initialised true ⟨'x'⟩ ⟨'y'⟩) ∧
    ((default_initialised true (⟨'x'⟩ : CChar) ⟨'y'⟩).insert true default).2.at_const true
      = .ok ⟨'x'⟩ ∧
    (default_initialised true (⟨'x'⟩ : CChar) ⟨'y'⟩).at_const true = .ok ⟨'x'⟩ := by
  have hne : selected (default_initialised true (⟨'x'⟩ : CChar) ⟨'y'⟩) true ≠ default := by
    decide
  have hins := bool_insert_of_ne (default_initialised true (⟨'x'⟩ : CChar) ⟨'y'⟩) true
    default hne
  refine ⟨hins, ?_, ?_, ?_⟩
  · rw [bool_insert_rval_eq]; exact hins
  · rw [hins]; exact bool_at_const_of_ne _ true hne
  · exact bool_at_const_of_ne _ true hne

/-- C19, the code where the claim fails. On the default-initialised
`VectorMap<bool, char>` whose storage held the characters x and y, the single
call `insert(true, q)`, q not being `char {}`, returns `(true, false)` and `at(true)`
then returns x, while the empty primary-template mapping with `bool` keys returns
`(true, true)` and `at(true)` then returns q; already before any insert `at(true)`
returns x in the specialization and throws in the primary template. -/
theorem bool_disagrees_on_default_initialised :
    (⟨'q'⟩ : CChar) ≠ default ∧
    (insertAll (default_initialised true (⟨'x'⟩ : CChar) ⟨'y'⟩) [(true, ⟨'q'⟩)]).1
      = [(true, false)] ∧
    (VectorMap.insertAll (VectorMap.empty : VectorMap Bool CChar) [(true, ⟨'q'⟩)]).1
      = [(true, true)] ∧
    (insertAll (default_initialised true (⟨'x'⟩ : CChar) ⟨'y'⟩) [(true, ⟨'q'⟩)]).2.at_const
      true = .ok ⟨'x'⟩ ∧
    (VectorMap.insertAll (VectorMap.empty : VectorMap Bool CChar)
      [(true, ⟨'q'⟩)]).2.at_const true = .ok ⟨'q'⟩ ∧
    (insertAll (default_initialised true (⟨'x'⟩ : CChar) ⟨'y'⟩) []).2.at_const true
      = .ok ⟨'x'⟩ ∧
    (VectorMap.insertAll (VectorMap.empty : VectorMap Bool CChar) []).2.at_const true
      = .error .out_of_range := by
  have hne : selected (default_initialised true (⟨'x'⟩ : CChar) ⟨'y'⟩) true ≠ default := by
    decide
  have hins := bool_insert_of_ne (default_initialised true (⟨'x'⟩ : CChar) ⟨'y'⟩) true
    ⟨'q'⟩ hne
  refine ⟨by decide, ?_, by decide, ?_, rfl, ?_, rfl⟩
  · simp only [insertAll, hins]
  · simp only [insertAll, hins]
    exact bool_at_const_of_ne _ true hne
  · exact bool_at_const_of_ne _ true hne

end VectorMapBool
